import Mathlib

/-!
Verification of the concurrent datapoints fetch engine
(`cognite/client/_api/datapoints.py`) against its natural-language
specification.  The Python source is shallowly embedded: pure helpers become
Lean functions, the stateful fetch loops become explicit state passing, and
machine integers become `Nat` (the Python integers involved are unbounded
non-negative counters and limits).  Parts of the repository that the file
`datapoints.py` imports but that are not part of the analysed sources
(`datapoint_tasks.py`, `utils/_auxiliary.py`, the priority pool) are modelled
from the specification; each such definition is marked in its doc comment.
-/

namespace Dps

/-- Server caps from `datapoint_constants.py`: per-request raw datapoints. -/
def DPS_LIMIT : Nat := 100000

/-- Server cap from `datapoint_constants.py`: per-request aggregate datapoints. -/
def DPS_LIMIT_AGG : Nat := 10000

/-- Server cap from `datapoint_constants.py`: items per request. -/
def FETCH_TS_LIMIT : Nat := 100

/-!
## `ChunkingDpsFetcher._find_initial_query_limits`

The Python function distributes a request budget `max_limit` over a list of
per-series caps `limits`: each round computes `part = max_limit // |not_done|`
once, grants every still-active series `min(part, limits[i])`, subtracts each
grant from `max_limit`, and removes satisfied series from `not_done`; it stops
when `not_done` is empty or no whole share (`part = 0`) remains.

State entries are triples `(acc, rem, active)`: datapoints granted so far,
the remaining series cap, and membership in `not_done`.  The Python `for i in
not_done` iterates a set in unspecified order; the grants of one round only
depend on `part`, which is fixed for the round, so the traversal order does
not affect the result and we traverse in list order.
-/

/-- One distribution-state entry: granted so far, remaining cap, still active. -/
abbrev FiqlEntry := Nat × Nat × Bool

/-- Number of entries still in the `not_done` set. -/
def countActive (l : List FiqlEntry) : Nat := (l.filter (fun e => e.2.2)).length

/-- The grant one active entry receives in a round with share `part`:
an active entry gets `min part rem`; it stays active only when its remaining
cap strictly exceeds the share. -/
def fiqlGrant (part : Nat) (e : FiqlEntry) : FiqlEntry :=
  if e.2.2 then (e.1 + min part e.2.1, e.2.1 - min part e.2.1, decide (part < e.2.1)) else e

/-- One round, written the way the spec describes it: give each still-active
series its capped share, all at once. -/
def fiqlSpecRound (part : Nat) (l : List FiqlEntry) : List FiqlEntry :=
  l.map (fiqlGrant part)

/-- Total amount granted in one round with share `part`. -/
def fiqlSpent (part : Nat) (l : List FiqlEntry) : Nat :=
  (l.map (fun e => if e.2.2 then min part e.2.1 else 0)).sum

/-- One round, written the way the code performs it: traverse the entries and
subtract every single grant from the running `max_limit` as it happens. -/
def fiqlCodeRound (part : Nat) : Nat → List FiqlEntry → Nat × List FiqlEntry
  | m, [] => (m, [])
  | m, e :: t =>
    if e.2.2 then
      let g := min part e.2.1
      let r := fiqlCodeRound part (m - g) t
      (r.1, (e.1 + g, e.2.1 - g, decide (part < e.2.1)) :: r.2)
    else
      let r := fiqlCodeRound part m t
      (r.1, e :: r.2)

theorem fiqlCodeRound_eq (part : Nat) (m : Nat) (l : List FiqlEntry) :
    fiqlCodeRound part m l = (m - fiqlSpent part l, fiqlSpecRound part l) := by
  induction l generalizing m with
  | nil => simp [fiqlCodeRound, fiqlSpent, fiqlSpecRound]
  | cons e t ih =>
    by_cases h : e.2.2 <;>
      simp [fiqlCodeRound, fiqlSpent, fiqlSpecRound, fiqlGrant, h, ih, Nat.sub_sub]

theorem countActive_fiqlSpecRound_le (part : Nat) (l : List FiqlEntry) :
    countActive (fiqlSpecRound part l) ≤ countActive l := by
  induction l with
  | nil => simp [fiqlSpecRound, countActive]
  | cons e t ih =>
    by_cases h : e.2.2
    · by_cases h2 : part < e.2.1 <;>
        simp_all [fiqlSpecRound, countActive, fiqlGrant, h, h2] <;> omega
    · simpa [fiqlSpecRound, countActive, fiqlGrant, h] using ih

theorem countActive_of_fiqlSpent_zero {part : Nat} (hp : 1 ≤ part) (l : List FiqlEntry)
    (h : fiqlSpent part l = 0) : countActive (fiqlSpecRound part l) = 0 := by
  induction l with
  | nil => simp [fiqlSpecRound, countActive]
  | cons e t ih =>
    simp only [fiqlSpent, List.map_cons, List.sum_cons, Nat.add_eq_zero] at h
    by_cases ha : e.2.2
    · have hrem : e.2.1 = 0 := by
        have := h.1
        simp [ha] at this
        omega
      have : ¬ part < e.2.1 := by omega
      simp [fiqlSpecRound, countActive, fiqlGrant, ha, hrem, this] at ih ⊢
      exact ih (by simpa [fiqlSpent] using h.2)
    · simp [fiqlSpecRound, countActive, fiqlGrant, ha] at ih ⊢
      exact ih (by simpa [fiqlSpent] using h.2)

theorem fiqlSpent_le_part_mul (part : Nat) (l : List FiqlEntry) :
    fiqlSpent part l ≤ part * countActive l := by
  induction l with
  | nil => simp [fiqlSpent, countActive]
  | cons e t ih =>
    by_cases h : e.2.2 <;>
      simp [fiqlSpent, countActive, h, Nat.mul_succ] at ih ⊢ <;> omega

/-- The termination measure drops in every round that the loop re-enters. -/
theorem fiqlMeasure_lt {maxLimit : Nat} {l : List FiqlEntry}
    (hk : ¬ countActive l = 0) (hp : ¬ maxLimit / countActive l = 0) :
    maxLimit - fiqlSpent (maxLimit / countActive l) l +
      countActive (fiqlSpecRound (maxLimit / countActive l) l) <
      maxLimit + countActive l := by
  set part := maxLimit / countActive l with hpart
  have hp1 : 1 ≤ part := Nat.one_le_iff_ne_zero.mpr hp
  by_cases hz : fiqlSpent part l = 0
  · have h0 : countActive (fiqlSpecRound part l) = 0 :=
      countActive_of_fiqlSpent_zero hp1 l hz
    have : 0 < countActive l := Nat.pos_of_ne_zero hk
    omega
  · have hle : countActive (fiqlSpecRound part l) ≤ countActive l :=
      countActive_fiqlSpecRound_le part l
    have hml : 0 < maxLimit := by
      rcases Nat.eq_zero_or_pos maxLimit with h | h
      · exfalso; apply hp; simp [hpart, h]
      · exact h
    have : maxLimit - fiqlSpent part l < maxLimit :=
      Nat.sub_lt hml (Nat.pos_of_ne_zero hz)
    omega

/-- The distribution loop, as the spec words it: repeatedly hand each
still-active series the floored even share, capped at its own limit, until no
whole share can be handed out. -/
def distributeLimitsLoop (maxLimit : Nat) (l : List FiqlEntry) : List FiqlEntry :=
  if hk : countActive l = 0 then l
  else if hp : maxLimit / countActive l = 0 then l
  else
    distributeLimitsLoop (maxLimit - fiqlSpent (maxLimit / countActive l) l)
      (fiqlSpecRound (maxLimit / countActive l) l)
termination_by maxLimit + countActive l
decreasing_by exact fiqlMeasure_lt hk hp

/-- The distribution loop, as the code performs it, with the running
`max_limit` threaded through every single grant. -/
def findInitialQueryLimitsLoop (maxLimit : Nat) (l : List FiqlEntry) : List FiqlEntry :=
  if hk : countActive l = 0 then l
  else if hp : maxLimit / countActive l = 0 then l
  else
    findInitialQueryLimitsLoop (fiqlCodeRound (maxLimit / countActive l) maxLimit l).1
      (fiqlCodeRound (maxLimit / countActive l) maxLimit l).2
termination_by maxLimit + countActive l
decreasing_by
  rw [fiqlCodeRound_eq]
  exact fiqlMeasure_lt hk hp

/-- `ChunkingDpsFetcher._find_initial_query_limits`: distribute the request
budget `max_limit` evenly over the per-series caps `limits`. -/
def find_initial_query_limits (limits : List Nat) (maxLimit : Nat) : List Nat :=
  (findInitialQueryLimitsLoop maxLimit (limits.map (fun L => (0, L, true)))).map (·.1)

/-- The even-share distribution algorithm stated by the spec
(`distribute_limits` in section 4.7). -/
def distribute_limits (limits : List Nat) (maxLimit : Nat) : List Nat :=
  (distributeLimitsLoop maxLimit (limits.map (fun L => (0, L, true)))).map (·.1)

theorem findInitialQueryLimitsLoop_eq_spec (maxLimit : Nat) (l : List FiqlEntry) :
    findInitialQueryLimitsLoop maxLimit l = distributeLimitsLoop maxLimit l := by
  generalize hn : maxLimit + countActive l = n
  induction n using Nat.strong_induction_on generalizing maxLimit l with
  | _ n ih =>
    rw [findInitialQueryLimitsLoop, distributeLimitsLoop]
    by_cases hk : countActive l = 0
    · simp [hk]
    · by_cases hp : maxLimit / countActive l = 0
      · simp [hk, hp]
      · simp only [hk, hp, dite_false, fiqlCodeRound_eq]
        exact ih _ (hn ▸ fiqlMeasure_lt hk hp) _ _ rfl

theorem distributeLimitsLoop_length (maxLimit : Nat) (l : List FiqlEntry) :
    (distributeLimitsLoop maxLimit l).length = l.length := by
  generalize hn : maxLimit + countActive l = n
  induction n using Nat.strong_induction_on generalizing maxLimit l with
  | _ n ih =>
    rw [distributeLimitsLoop]
    by_cases hk : countActive l = 0
    · simp [hk]
    · by_cases hp : maxLimit / countActive l = 0
      · simp [hk, hp]
      · simp only [hk, hp, dite_false]
        rw [ih _ (hn ▸ fiqlMeasure_lt hk hp) _ _ rfl]
        simp [fiqlSpecRound]

/-- Each entry keeps `acc + rem` constant: grants move budget from the
remaining cap into the accumulator, never past the cap. -/
theorem distributeLimitsLoop_acc_add_rem (maxLimit : Nat) (l : List FiqlEntry) :
    (distributeLimitsLoop maxLimit l).map (fun e => e.1 + e.2.1) =
      l.map (fun e => e.1 + e.2.1) := by
  generalize hn : maxLimit + countActive l = n
  induction n using Nat.strong_induction_on generalizing maxLimit l with
  | _ n ih =>
    rw [distributeLimitsLoop]
    by_cases hk : countActive l = 0
    · simp [hk]
    · by_cases hp : maxLimit / countActive l = 0
      · simp [hk, hp]
      · simp only [hk, hp, dite_false]
        rw [ih _ (hn ▸ fiqlMeasure_lt hk hp) _ _ rfl]
        have : ∀ e : FiqlEntry,
            (fiqlGrant (maxLimit / countActive l) e).1 +
              (fiqlGrant (maxLimit / countActive l) e).2.1 = e.1 + e.2.1 := by
          intro e
          by_cases h : e.2.2 <;> simp [fiqlGrant, h] <;> omega
        simp [fiqlSpecRound, List.map_map, Function.comp, this]

/-- Sum of the accumulators. -/
def fiqlSumAcc (l : List FiqlEntry) : Nat := (l.map (·.1)).sum

theorem fiqlSumAcc_specRound (part : Nat) (l : List FiqlEntry) :
    fiqlSumAcc (fiqlSpecRound part l) = fiqlSumAcc l + fiqlSpent part l := by
  induction l with
  | nil => simp [fiqlSumAcc, fiqlSpecRound, fiqlSpent]
  | cons e t ih =>
    by_cases h : e.2.2 <;>
      simp [fiqlSumAcc, fiqlSpecRound, fiqlSpent, fiqlGrant, h] at ih ⊢ <;> omega

theorem distributeLimitsLoop_sumAcc_le (maxLimit : Nat) (l : List FiqlEntry) :
    fiqlSumAcc (distributeLimitsLoop maxLimit l) ≤ fiqlSumAcc l + maxLimit := by
  generalize hn : maxLimit + countActive l = n
  induction n using Nat.strong_induction_on generalizing maxLimit l with
  | _ n ih =>
    rw [distributeLimitsLoop]
    by_cases hk : countActive l = 0
    · simp [hk]
    · by_cases hp : maxLimit / countActive l = 0
      · simp [hk, hp]
      · simp only [hk, hp, dite_false]
        set part := maxLimit / countActive l with hpart
        have hspent : fiqlSpent part l ≤ maxLimit := by
          calc fiqlSpent part l ≤ part * countActive l := fiqlSpent_le_part_mul part l
          _ ≤ maxLimit := by rw [hpart]; exact Nat.div_mul_le_self maxLimit (countActive l)
        have := ih _ (hn ▸ fiqlMeasure_lt hk hp)
          (maxLimit - fiqlSpent part l) (fiqlSpecRound part l) rfl
        rw [fiqlSumAcc_specRound] at this
        omega

theorem fiql_as_spec (limits : List Nat) (maxLimit : Nat) :
    find_initial_query_limits limits maxLimit = distribute_limits limits maxLimit := by
  unfold find_initial_query_limits distribute_limits
  rw [findInitialQueryLimitsLoop_eq_spec]

theorem fiql_length (limits : List Nat) (maxLimit : Nat) :
    (find_initial_query_limits limits maxLimit).length = limits.length := by
  rw [fiql_as_spec]
  unfold distribute_limits
  simp [distributeLimitsLoop_length]

theorem fiqlSumAcc_init (limits : List Nat) :
    fiqlSumAcc (limits.map (fun L => ((0 : Nat), L, true))) = 0 := by
  induction limits with
  | nil => simp [fiqlSumAcc]
  | cons a t ih => simpa [fiqlSumAcc] using ih

theorem fiqlAccRem_init (limits : List Nat) :
    (limits.map (fun L => ((0 : Nat), L, true))).map (fun e => e.1 + e.2.1) = limits := by
  induction limits with
  | nil => simp
  | cons a t ih => simpa using ih

theorem fiql_sum_le (limits : List Nat) (maxLimit : Nat) :
    (find_initial_query_limits limits maxLimit).sum ≤ maxLimit := by
  rw [fiql_as_spec]
  unfold distribute_limits
  have h := distributeLimitsLoop_sumAcc_le maxLimit (limits.map (fun L => (0, L, true)))
  rw [fiqlSumAcc_init] at h
  simpa [fiqlSumAcc] using h

theorem forall₂_fst_le_acc_add_rem (l : List FiqlEntry) :
    List.Forall₂ (· ≤ ·) (l.map (·.1)) (l.map (fun e => e.1 + e.2.1)) := by
  induction l with
  | nil => simp
  | cons e t ih => exact List.Forall₂.cons (Nat.le_add_right _ _) ih

theorem fiql_forall₂_le (limits : List Nat) (maxLimit : Nat) :
    List.Forall₂ (· ≤ ·) (find_initial_query_limits limits maxLimit) limits := by
  rw [fiql_as_spec]
  unfold distribute_limits
  have h := forall₂_fst_le_acc_add_rem
    (distributeLimitsLoop maxLimit (limits.map (fun L => (0, L, true))))
  rw [distributeLimitsLoop_acc_add_rem] at h
  rwa [fiqlAccRem_init] at h

/-- C3: `_find_initial_query_limits` (the spec calls it `distribute_limits`)
terminates on every input, returns a list of the same length, grants each
series at most its own cap, stays within the total budget `max_limit`, and
computes exactly the even-share distribution the spec describes (repeatedly
hand every still-active series the floored even share of the remaining
budget, capped at its remaining limit, dropping satisfied series, until no
whole share remains).  Termination is witnessed by the function being a total
Lean definition. -/
theorem find_initial_query_limits_correct (limits : List Nat) (maxLimit : Nat) :
    (find_initial_query_limits limits maxLimit).length = limits.length ∧
      List.Forall₂ (· ≤ ·) (find_initial_query_limits limits maxLimit) limits ∧
      (find_initial_query_limits limits maxLimit).sum ≤ maxLimit ∧
      find_initial_query_limits limits maxLimit = distribute_limits limits maxLimit :=
  ⟨fiql_length limits maxLimit, fiql_forall₂_le limits maxLimit,
    fiql_sum_le limits maxLimit, fiql_as_spec limits maxLimit⟩

/-!
## Data model

The fields of `_SingleTSQueryBase` that the fetch engine in `datapoints.py`
reads.  The query validator lives in `datapoint_tasks.py`, which is not among
the analysed sources; queries are therefore taken as already-validated
records.
-/

/-- Identifier of one time series: internal id or external id.  External ids
are strings in the source; only equality of identifiers matters to the
engine, so they are numbered here. -/
inductive Ident
  | byId (n : Nat)
  | byXid (n : Nat)
deriving DecidableEq

/-- One expanded single-series query. -/
structure TSQuery where
  ident : Ident
  is_raw_query : Bool
  ignore_unknown_ids : Bool
  capped_limit : Nat
  max_query_limit : Nat
deriving DecidableEq

/-!
## `ChunkingDpsFetcher._create_initial_tasks` (Phase A request construction)
-/

/-- Modelled from the spec: `split_into_n_parts` lives in
`utils/_auxiliary.py`, which is not among the analysed sources.  The spec
says the query lists are partitioned into near-equal chunks; this model takes
contiguous chunks whose sizes differ by at most one, earlier chunks taking
the extra element. -/
def split_into_n_parts {α : Type} : Nat → List α → List (List α)
  | 0, _ => []
  | n + 1, l =>
    l.take ((l.length + n) / (n + 1)) :: split_into_n_parts n (l.drop ((l.length + n) / (n + 1)))

theorem split_into_n_parts_length {α : Type} (n : Nat) (l : List α) :
    (split_into_n_parts n l).length = n := by
  induction n generalizing l with
  | zero => simp [split_into_n_parts]
  | succ n ih => simp [split_into_n_parts, ih]

theorem split_into_n_parts_join {α : Type} (n : Nat) (l : List α) :
    (split_into_n_parts (n + 1) l).join = l := by
  induction n generalizing l with
  | zero => simp [split_into_n_parts]
  | succ n ih =>
    rw [split_into_n_parts]
    show List.take _ l ++ (split_into_n_parts (n + 1) _).join = l
    rw [ih, List.take_append_drop]

theorem split_into_n_parts_subset {α : Type} (n : Nat) (l : List α) :
    ∀ p ∈ split_into_n_parts n l, ∀ x ∈ p, x ∈ l := by
  induction n generalizing l with
  | zero => simp [split_into_n_parts]
  | succ n ih =>
    intro p hp x hx
    simp only [split_into_n_parts, List.mem_cons] at hp
    rcases hp with h | h
    · exact List.mem_of_mem_take (h ▸ hx)
    · exact List.mem_of_mem_drop (ih _ p h x hx)

/-- Every chunk of an `n`-way near-equal split has at most
`ceil(length / n)` elements. -/
theorem split_into_n_parts_size_le {α : Type} (n : Nat) (l : List α) :
    ∀ p ∈ split_into_n_parts (n + 1) l, p.length ≤ (l.length + n) / (n + 1) := by
  induction n generalizing l with
  | zero =>
    intro p hp
    simp only [split_into_n_parts, List.mem_cons, List.not_mem_nil, or_false] at hp
    subst hp
    simp
  | succ n ih =>
    intro p hp
    rw [split_into_n_parts] at hp
    rcases List.mem_cons.mp hp with h | h
    · subst h
      simpa using Nat.le_refl _
    · have hle := ih (l.drop ((l.length + (n + 1)) / (n + 1 + 1))) p h
      rw [List.length_drop] at hle
      set c := (l.length + (n + 1)) / (n + 1 + 1) with hc
      have h1 : l.length + (n + 1) ≤ (n + 1 + 1) * c + (n + 1 + 1 - 1) :=
        (Nat.div_le_iff_le_mul_add_pred (show 0 < n + 1 + 1 by omega)).mp hc.ge
      have hL : l.length ≤ (n + 1 + 1) * c := by
        have h1' : l.length + (n + 1) ≤ (n + 1 + 1) * c + (n + 1) := by
          simpa using h1
        exact Nat.le_of_add_le_add_right h1'
      have h2 : (n + 1 + 1) * c = (n + 1) * c + c := by ring
      have h3 : l.length - c ≤ (n + 1) * c := by
        have hsub := Nat.sub_le_sub_right hL c
        rwa [h2, Nat.add_sub_cancel] at hsub
      have hdivle : (l.length - c + n) / (n + 1) ≤ c := by
        rw [Nat.div_le_iff_le_mul_add_pred (show 0 < n + 1 by omega)]
        have : l.length - c + n ≤ (n + 1) * c + n := Nat.add_le_add h3 (Nat.le_refl n)
        simpa using this
      exact le_trans hle hdivle

/-- One Phase A discovery request: `(query, limit)` payload items in request
order (aggregate items first, then raw), submitted with
`ignoreUnknownIds=true` at priority 0. -/
structure InitialReq where
  items : List (TSQuery × Nat)
  ignoreUnknownIds : Bool
  priority : Nat
deriving DecidableEq

/-- `ChunkingDpsFetcher._create_initial_tasks`: partition the aggregate and
raw query lists into `max(max_workers, ceil(n_queries / FETCH_TS_LIMIT))`
near-equal chunks and build one request per chunk pair, per-item limits
coming from `_find_initial_query_limits` with the flavor budget
(`DPS_LIMIT_AGG` for aggregate items, `DPS_LIMIT` for raw). -/
def create_initial_tasks (maxWorkers : Nat) (aggQueries rawQueries : List TSQuery)
    (nQueries : Nat) : List InitialReq :=
  let n := max maxWorkers ((nQueries + (FETCH_TS_LIMIT - 1)) / FETCH_TS_LIMIT)
  ((split_into_n_parts n aggQueries).zip (split_into_n_parts n rawQueries)).map
    (fun qc =>
      { items := qc.1.zip (find_initial_query_limits (qc.1.map (·.capped_limit)) DPS_LIMIT_AGG)
          ++ qc.2.zip (find_initial_query_limits (qc.2.map (·.capped_limit)) DPS_LIMIT)
        ignoreUnknownIds := true
        priority := 0 })

/-- Sum of the payload `limit` fields of the items of one flavor. -/
def reqFlavorSum (isRaw : Bool) (r : InitialReq) : Nat :=
  ((r.items.filter (fun p => p.1.is_raw_query == isRaw)).map (·.2)).sum

theorem zip_filter_flavor_nil (qs : List TSQuery) (lims : List Nat) (b : Bool)
    (h : ∀ q ∈ qs, q.is_raw_query = !b) :
    (qs.zip lims).filter (fun p => p.1.is_raw_query == b) = [] := by
  induction qs generalizing lims with
  | nil => simp
  | cons q t ih =>
    cases lims with
    | nil => simp
    | cons a ls =>
      have hq : q.is_raw_query = !b := h q (by simp)
      have hrest := ih ls (fun x hx => h x (by simp [hx]))
      cases b <;> simp_all [List.filter_cons] <;> assumption

theorem zip_filter_flavor_all (qs : List TSQuery) (lims : List Nat) (b : Bool)
    (h : ∀ q ∈ qs, q.is_raw_query = b) :
    (qs.zip lims).filter (fun p => p.1.is_raw_query == b) = qs.zip lims := by
  induction qs generalizing lims with
  | nil => simp
  | cons q t ih =>
    cases lims with
    | nil => simp
    | cons a ls =>
      have hq : q.is_raw_query = b := h q (by simp)
      have hrest := ih ls (fun x hx => h x (by simp [hx]))
      cases b <;> simp_all [List.filter_cons] <;> assumption

/-- The sum of two ceiling shares of a pool of at most `100 * n` queries is
at most 101. -/
theorem ceil_share_sum_le (n a r nq : Nat) (hn : 1 ≤ n) (hq : a + r = nq)
    (hcap : nq ≤ 100 * n) :
    (a + (n - 1)) / n + (r + (n - 1)) / n ≤ 101 := by
  set X := a + (n - 1) with hX
  set Y := r + (n - 1) with hY
  have h2 : X + Y < 102 * n := by omega
  have h3 : (X / n + Y / n) * n ≤ X + Y := by
    calc (X / n + Y / n) * n = X / n * n + Y / n * n := by ring
    _ ≤ X + Y := Nat.add_le_add (Nat.div_mul_le_self X n) (Nat.div_mul_le_self Y n)
  have h4 : (X / n + Y / n) * n < 102 * n := lt_of_le_of_lt h3 h2
  have h5 : X / n + Y / n < 102 := Nat.lt_of_mul_lt_mul_right h4
  omega

/-- C4 (amended): Phase A builds `max(max_workers, ceil(n_queries / 100))`
initial requests, one per near-equal chunk pair, each submitted with
`ignoreUnknownIds=true` at priority 0; each carries at most
`FETCH_TS_LIMIT + 1 = 101` items (the claimed bound of 100 can be exceeded
by one when both flavors are non-empty), with total raw limit at most
`DPS_LIMIT` and total aggregate limit at most `DPS_LIMIT_AGG`. -/
theorem create_initial_tasks_correct (maxWorkers nQueries : Nat)
    (aggQueries rawQueries : List TSQuery)
    (hmw : 1 ≤ maxWorkers)
    (hn : nQueries = aggQueries.length + rawQueries.length)
    (hagg : ∀ q ∈ aggQueries, q.is_raw_query = false)
    (hraw : ∀ q ∈ rawQueries, q.is_raw_query = true) :
    (create_initial_tasks maxWorkers aggQueries rawQueries nQueries).length =
        max maxWorkers ((nQueries + 99) / 100) ∧
      ∀ r ∈ create_initial_tasks maxWorkers aggQueries rawQueries nQueries,
        r.ignoreUnknownIds = true ∧ r.priority = 0 ∧
        r.items.length ≤ FETCH_TS_LIMIT + 1 ∧
        reqFlavorSum true r ≤ DPS_LIMIT ∧ reqFlavorSum false r ≤ DPS_LIMIT_AGG := by
  set n := max maxWorkers ((nQueries + (FETCH_TS_LIMIT - 1)) / FETCH_TS_LIMIT) with hnn
  have hn99 : n = max maxWorkers ((nQueries + 99) / 100) := by
    simp [hnn, FETCH_TS_LIMIT]
  have hn1 : 1 ≤ n := le_trans hmw (le_max_left _ _)
  constructor
  · rw [create_initial_tasks, ← hnn, ← hn99]
    rw [List.length_map, List.length_zip, split_into_n_parts_length,
      split_into_n_parts_length]
    simp
  · intro r hr
    rw [create_initial_tasks, ← hnn] at hr
    rcases List.mem_map.mp hr with ⟨qc, hqc, hfr⟩
    have hmem := List.mem_zip hqc
    obtain ⟨m, hm⟩ : ∃ m, n = m + 1 := ⟨n - 1, by omega⟩
    have hca : qc.1.length ≤ (aggQueries.length + m) / (m + 1) := by
      apply split_into_n_parts_size_le m aggQueries
      rw [← hm]; exact hmem.1
    have hcr : qc.2.length ≤ (rawQueries.length + m) / (m + 1) := by
      apply split_into_n_parts_size_le m rawQueries
      rw [← hm]; exact hmem.2
    have hcap : nQueries ≤ 100 * n := by
      have hle : (nQueries + 99) / 100 ≤ n := le_trans (le_max_right _ _) hn99.ge
      omega
    have hshare : (aggQueries.length + m) / (m + 1) + (rawQueries.length + m) / (m + 1)
        ≤ 101 := by
      have := ceil_share_sum_le (m + 1) aggQueries.length rawQueries.length nQueries
        (by omega) hn.symm (by rw [← hm]; exact hcap)
      simpa using this
    have hlenA := fiql_length (qc.1.map (·.capped_limit)) DPS_LIMIT_AGG
    have hlenR := fiql_length (qc.2.map (·.capped_limit)) DPS_LIMIT
    rw [List.length_map] at hlenA hlenR
    subst hfr
    refine ⟨rfl, rfl, ?_, ?_, ?_⟩
    · simp only [List.length_append, List.length_zip, hlenA, hlenR, min_self]
      show qc.1.length + qc.2.length ≤ FETCH_TS_LIMIT + 1
      have : FETCH_TS_LIMIT + 1 = 101 := by simp [FETCH_TS_LIMIT]
      omega
    · have haggq : ∀ q ∈ qc.1, q.is_raw_query = false :=
        fun q hq => hagg q (split_into_n_parts_subset n aggQueries qc.1 hmem.1 q hq)
      have hrawq : ∀ q ∈ qc.2, q.is_raw_query = true :=
        fun q hq => hraw q (split_into_n_parts_subset n rawQueries qc.2 hmem.2 q hq)
      rw [reqFlavorSum]
      simp only [List.filter_append]
      rw [zip_filter_flavor_nil qc.1 _ true (by simpa using haggq),
        zip_filter_flavor_all qc.2 _ true hrawq]
      simp only [List.nil_append]
      rw [List.map_snd_zip _ _ (le_of_eq hlenR)]
      exact fiql_sum_le _ _
    · have haggq : ∀ q ∈ qc.1, q.is_raw_query = false :=
        fun q hq => hagg q (split_into_n_parts_subset n aggQueries qc.1 hmem.1 q hq)
      have hrawq : ∀ q ∈ qc.2, q.is_raw_query = true :=
        fun q hq => hraw q (split_into_n_parts_subset n rawQueries qc.2 hmem.2 q hq)
      rw [reqFlavorSum]
      simp only [List.filter_append]
      rw [zip_filter_flavor_nil qc.2 _ false (by simpa using hrawq),
        zip_filter_flavor_all qc.1 _ false haggq]
      simp only [List.append_nil]
      rw [List.map_snd_zip _ _ (le_of_eq hlenA)]
      exact fiql_sum_le _ _

/-- 99 aggregate queries, identical fields. -/
def aggQ99 : List TSQuery :=
  List.replicate 99 ⟨Ident.byId 0, false, false, 10000, 10000⟩

/-- 101 raw queries, identical fields. -/
def rawQ101 : List TSQuery :=
  List.replicate 101 ⟨Ident.byId 1, true, false, 100000, 100000⟩

theorem create_initial_tasks_cex_eval :
    (create_initial_tasks 2 aggQ99 rawQ101 200).map (fun r => r.items.length) =
      [101, 99] := by
  have h1 : aggQ99.length = 99 := by simp [aggQ99]
  have h2 : rawQ101.length = 101 := by simp [rawQ101]
  rw [create_initial_tasks]
  norm_num [FETCH_TS_LIMIT, h1, h2, split_into_n_parts, List.length_drop,
    List.length_take]
  constructor
  · rw [fiql_length, fiql_length]
    norm_num [aggQ99, rawQ101]
  · rw [fiql_length, fiql_length]
    norm_num [aggQ99, rawQ101]

/-- C4 counterexample: with `max_workers = 2`, 99 aggregate queries and 101
raw queries (200 single-series queries in total), Phase A partitions each
flavor into 2 near-equal chunks and the first chunk pair yields an initial
request with 101 items, violating the claimed bound `FETCH_TS_LIMIT = 100`. -/
theorem create_initial_tasks_item_count_cex :
    ¬ ∀ r ∈ create_initial_tasks 2 aggQ99 rawQ101 200,
        r.items.length ≤ FETCH_TS_LIMIT := by
  intro hall
  have h101 : (101 : Nat) ∈
      (create_initial_tasks 2 aggQ99 rawQ101 200).map (fun r => r.items.length) := by
    rw [create_initial_tasks_cex_eval]; simp
  rcases List.mem_map.mp h101 with ⟨r, hr, hlen⟩
  have := hall r hr
  rw [hlen] at this
  simp [FETCH_TS_LIMIT] at this

/-!
## `ChunkingDpsFetcher._update_queries_with_new_chunking_limit`
-/

/-- The raw chunk count the code computes over the still-unfinished queries:
`min(FETCH_TS_LIMIT, ceil((tot_raw or 1) / 10))`.  Python truthiness makes
`tot_raw or 1` replace a zero count by 1. -/
def nRawChunk (queries : List TSQuery) : Nat :=
  let totRaw := (queries.filter (fun q => q.is_raw_query)).length
  min FETCH_TS_LIMIT (((if totRaw = 0 then 1 else totRaw) + 9) / 10)

/-- The aggregate chunk count, `min(FETCH_TS_LIMIT, ceil((tot_agg or 1) / 10))`
with `tot_agg = len(queries) - tot_raw`. -/
def nAggChunk (queries : List TSQuery) : Nat :=
  let totAgg := queries.length - (queries.filter (fun q => q.is_raw_query)).length
  min FETCH_TS_LIMIT (((if totAgg = 0 then 1 else totAgg) + 9) / 10)

/-- `ChunkingDpsFetcher._update_queries_with_new_chunking_limit`: keep the
queries whose task is unfinished, recompute the flavor chunk counts, and
override every unfinished query's per-request limit with the flavor budget
divided by the chunk count.  The lookup is passed as `(query, task_is_done)`
pairs; the source returns the corresponding unfinished task objects, modelled
here by the updated queries. -/
def update_queries_with_new_chunking_limit (lookup : List (TSQuery × Bool)) :
    List TSQuery :=
  let queries := (lookup.filter (fun p => !p.2)).map (·.1)
  let maxLimitRaw := DPS_LIMIT / nRawChunk queries
  let maxLimitAgg := DPS_LIMIT_AGG / nAggChunk queries
  queries.map (fun q =>
    if q.is_raw_query then { q with max_query_limit := maxLimitRaw }
    else { q with max_query_limit := maxLimitAgg })

/-- A single unfinished aggregate query, used as concrete input. -/
def oneAggQuery : TSQuery := ⟨Ident.byId 0, false, false, 10, 10⟩

/-- C8 counterexample: with one unfinished aggregate query and zero
unfinished raw queries, the code computes `n_raw_chunk = 1` (via the
`tot_raw or 1` guard) whereas the claimed formula
`min(FETCH_TS_LIMIT, ceil(n_raw_unfinished / 10))` evaluates to 0 at
`n_raw_unfinished = 0`, which would make the claimed override
`floor(DPS_LIMIT / n_raw_chunk)` a division by zero. -/
theorem nRawChunk_zero_cex :
    nRawChunk [oneAggQuery] = 1 ∧ min FETCH_TS_LIMIT ((0 + 9) / 10) = 0 := by
  decide

/-- C8 (amended): the chunk counts are
`min(FETCH_TS_LIMIT, ceil(max(n_raw_unfinished, 1) / 10))` and
`min(FETCH_TS_LIMIT, ceil(max(n_agg_unfinished, 1) / 10))` — the claimed
formulas with the zero count replaced by 1 — and every unfinished raw
query's per-request limit is overridden to `floor(DPS_LIMIT / n_raw_chunk)`
while every unfinished aggregate query's is overridden to
`floor(DPS_LIMIT_AGG / n_agg_chunk)`; finished queries are dropped. -/
theorem update_queries_with_new_chunking_limit_correct (lookup : List (TSQuery × Bool)) :
    nRawChunk ((lookup.filter (fun p => !p.2)).map (·.1)) =
        min FETCH_TS_LIMIT
          ((max ((((lookup.filter (fun p => !p.2)).map (·.1)).filter
            (fun q => q.is_raw_query)).length) 1 + 9) / 10) ∧
      nAggChunk ((lookup.filter (fun p => !p.2)).map (·.1)) =
        min FETCH_TS_LIMIT
          ((max (((lookup.filter (fun p => !p.2)).map (·.1)).length -
            ((((lookup.filter (fun p => !p.2)).map (·.1)).filter
              (fun q => q.is_raw_query)).length)) 1 + 9) / 10) ∧
      update_queries_with_new_chunking_limit lookup =
        ((lookup.filter (fun p => !p.2)).map (·.1)).map (fun q =>
          if q.is_raw_query then
            { q with max_query_limit :=
                DPS_LIMIT / nRawChunk ((lookup.filter (fun p => !p.2)).map (·.1)) }
          else
            { q with max_query_limit :=
                DPS_LIMIT_AGG / nAggChunk ((lookup.filter (fun p => !p.2)).map (·.1)) }) := by
  have hmax : ∀ t : Nat, (if t = 0 then 1 else t) = max t 1 := by
    intro t
    rcases Nat.eq_zero_or_pos t with h | h
    · simp [h]
    · rw [if_neg (by omega)]
      omega
  refine ⟨?_, ?_, rfl⟩
  · rw [nRawChunk]
    congr 1
    rw [hmax]
  · rw [nAggChunk]
    congr 1
    rw [hmax]

/-!
## `validate_and_split_user_queries` and `dps_fetch_selector`
-/

/-- Fields of one identifier entry of a user query, with per-identifier
overrides already resolved (the validator in `datapoint_tasks.py`, not among
the analysed sources, applies overrides before expansion). -/
structure IdentSpec where
  value : Nat
  hasAggregates : Bool
  ignore_unknown_ids : Bool
  capped_limit : Nat
  max_query_limit : Nat
deriving DecidableEq

/-- One top-level user query: its `id` entries then its `external_id`
entries, each list in the order given by the user. -/
structure UserQuery where
  ids : List IdentSpec
  external_ids : List IdentSpec
deriving DecidableEq

/-- Modelled from the spec: the validator expansion
(`_SingleTSQueryValidator.validate_and_create_single_queries`, in
`datapoint_tasks.py`, not among the analysed sources).  Each user query
yields one single-series query per identifier occurrence — ids before
external ids, duplicates preserved — tagged raw exactly when it requests no
aggregates. -/
def validate_and_create_single_queries (uq : UserQuery) : List TSQuery :=
  uq.ids.map (fun s =>
      ⟨Ident.byId s.value, !s.hasAggregates, s.ignore_unknown_ids,
        s.capped_limit, s.max_query_limit⟩)
    ++ uq.external_ids.map (fun s =>
      ⟨Ident.byXid s.value, !s.hasAggregates, s.ignore_unknown_ids,
        s.capped_limit, s.max_query_limit⟩)

/-- `validate_and_split_user_queries`: expand every user query in order into
`all_queries`, then route each single-series query into the aggregate or the
raw list (in that tuple order) with one left-to-right pass over
`all_queries`. -/
def validate_and_split_user_queries (uqs : List UserQuery) :
    List TSQuery × List TSQuery × List TSQuery :=
  let allQueries := (uqs.map validate_and_create_single_queries).join
  let split := allQueries.foldl
    (fun (p : List TSQuery × List TSQuery) q =>
      if q.is_raw_query then (p.1, p.2 ++ [q]) else (p.1 ++ [q], p.2))
    ([], [])
  (allQueries, split.1, split.2)

/-- The two fetch strategies. -/
inductive Strategy
  | eager
  | chunking
deriving DecidableEq

/-- `dps_fetch_selector`: reject `max_workers < 1`, split the user queries,
and pick Eager exactly when the expanded query count is within the worker
budget, Chunking otherwise; both strategies receive the same three query
lists. -/
def dps_fetch_selector (maxWorkers : Nat) (uqs : List UserQuery) :
    Except Unit (Strategy × List TSQuery × List TSQuery × List TSQuery) :=
  if maxWorkers < 1 then .error ()
  else if (validate_and_split_user_queries uqs).1.length ≤ maxWorkers then
    .ok (.eager, validate_and_split_user_queries uqs)
  else .ok (.chunking, validate_and_split_user_queries uqs)

theorem split_foldl_eq_filter (l : List TSQuery) (acc1 acc2 : List TSQuery) :
    l.foldl
        (fun (p : List TSQuery × List TSQuery) q =>
          if q.is_raw_query then (p.1, p.2 ++ [q]) else (p.1 ++ [q], p.2))
        (acc1, acc2) =
      (acc1 ++ l.filter (fun q => !q.is_raw_query),
        acc2 ++ l.filter (fun q => q.is_raw_query)) := by
  induction l generalizing acc1 acc2 with
  | nil => simp
  | cons q t ih =>
    by_cases h : q.is_raw_query = true <;>
      simp [List.foldl_cons, List.filter_cons, h, ih]

theorem validate_and_split_user_queries_eq (uqs : List UserQuery) :
    validate_and_split_user_queries uqs =
      ((uqs.map validate_and_create_single_queries).join,
        ((uqs.map validate_and_create_single_queries).join).filter
          (fun q => !q.is_raw_query),
        ((uqs.map validate_and_create_single_queries).join).filter
          (fun q => q.is_raw_query)) := by
  rw [validate_and_split_user_queries]
  simp only [split_foldl_eq_filter, List.nil_append]

/-- C5: for any validated user-query set and `max_workers ≥ 1`,
`dps_fetch_selector` succeeds, picks Eager exactly when the number of
expanded single-series queries is at most `max_workers` and Chunking
otherwise, and hands the chosen fetcher the expansion `all_queries` (user
order, ids before external ids, duplicates preserved) together with
`aggregate_only` and `raw_only`, the partition of `all_queries` by
`is_raw_query` with relative order preserved. -/
theorem dps_fetch_selector_correct (maxWorkers : Nat) (uqs : List UserQuery)
    (hmw : 1 ≤ maxWorkers) :
    ∃ s : Strategy,
      dps_fetch_selector maxWorkers uqs =
        .ok (s, (uqs.map validate_and_create_single_queries).join,
          ((uqs.map validate_and_create_single_queries).join).filter
            (fun q => !q.is_raw_query),
          ((uqs.map validate_and_create_single_queries).join).filter
            (fun q => q.is_raw_query)) ∧
      (s = .eager ↔
        ((uqs.map validate_and_create_single_queries).join).length ≤ maxWorkers) := by
  rw [dps_fetch_selector]
  have hnot : ¬ maxWorkers < 1 := by omega
  rw [if_neg hnot, validate_and_split_user_queries_eq]
  by_cases hle : ((uqs.map validate_and_create_single_queries).join).length ≤ maxWorkers
  · refine ⟨.eager, ?_, ?_⟩
    · rw [if_pos hle]
    · exact iff_of_true rfl hle
  · refine ⟨.chunking, ?_, ?_⟩
    · rw [if_neg hle]
    · constructor
      · intro h; cases h
      · intro h; exact absurd h hle

/-- Witness for C5 at a concrete input: two user queries, one raw id entry
and one aggregate external id entry, `max_workers = 2`. -/
theorem dps_fetch_selector_correct_witness :
    (1 : Nat) ≤ 2 ∧
      ∃ s : Strategy,
        dps_fetch_selector 2
            [⟨[⟨5, false, false, 7, 7⟩], []⟩, ⟨[], [⟨6, true, true, 8, 8⟩]⟩] =
          .ok (s,
            ((([⟨[⟨5, false, false, 7, 7⟩], []⟩, ⟨[], [⟨6, true, true, 8, 8⟩]⟩] :
                List UserQuery).map validate_and_create_single_queries).join),
            (((([⟨[⟨5, false, false, 7, 7⟩], []⟩, ⟨[], [⟨6, true, true, 8, 8⟩]⟩] :
                List UserQuery).map validate_and_create_single_queries).join).filter
              (fun q => !q.is_raw_query)),
            (((([⟨[⟨5, false, false, 7, 7⟩], []⟩, ⟨[], [⟨6, true, true, 8, 8⟩]⟩] :
                List UserQuery).map validate_and_create_single_queries).join).filter
              (fun q => q.is_raw_query))) ∧
          (s = .eager ↔
            (((([⟨[⟨5, false, false, 7, 7⟩], []⟩, ⟨[], [⟨6, true, true, 8, 8⟩]⟩] :
                List UserQuery).map validate_and_create_single_queries).join).length ≤ 2)) :=
  ⟨by omega, dps_fetch_selector_correct 2 _ (by omega)⟩

/-- A single raw query, used as concrete input. -/
def oneRawQuery : TSQuery := ⟨Ident.byId 1, true, false, 20, 20⟩

/-- Witness for the amended C4 theorem at a concrete input: one aggregate
query and one raw query with one worker. -/
theorem create_initial_tasks_correct_witness :
    (1 : Nat) ≤ 1 ∧ (2 : Nat) = [oneAggQuery].length + [oneRawQuery].length ∧
      ((create_initial_tasks 1 [oneAggQuery] [oneRawQuery] 2).length =
          max 1 ((2 + 99) / 100) ∧
        ∀ r ∈ create_initial_tasks 1 [oneAggQuery] [oneRawQuery] 2,
          r.ignoreUnknownIds = true ∧ r.priority = 0 ∧
          r.items.length ≤ FETCH_TS_LIMIT + 1 ∧
          reqFlavorSum true r ≤ DPS_LIMIT ∧ reqFlavorSum false r ≤ DPS_LIMIT_AGG) :=
  ⟨by omega, by simp [oneAggQuery, oneRawQuery],
    create_initial_tasks_correct 1 2 [oneAggQuery] [oneRawQuery] (by omega)
      (by simp [oneAggQuery, oneRawQuery])
      (by intro q hq; simp [oneAggQuery] at hq; simp [hq])
      (by intro q hq; simp [oneRawQuery] at hq; simp [hq])⟩

/-!
## `EagerDpsFetcher.request_datapoints_jit`
-/

/-- One eager-mode subtask, reduced to what `request_datapoints_jit`
inspects: whether its parent task has finished, and the payload item it
would request (abstracted to a number standing for the start/end/limit
bundle). -/
structure EagerSubtask where
  parentDone : Bool
  item : Nat
deriving DecidableEq

/-- Modelled from the spec: `SplittingFetchSubtask.get_next_payload`
(`datapoint_tasks.py`, not among the analysed sources) returns the next
request body item, or the sentinel `None` once there is nothing left —
in particular once the parent task has finished. -/
def get_next_payload (t : EagerSubtask) : Option Nat :=
  if t.parentDone then none else some t.item

/-- `EagerDpsFetcher.request_datapoints_jit`, parameterized by the transport
(`dps_client._post`, an external collaborator): the payload is built at
dispatch time, and the sentinel answer skips the POST and returns the
sentinel result `[None]`.  The Bool records whether a POST was issued. -/
def request_datapoints_jit (post : Nat → List (Option Nat)) (t : EagerSubtask) :
    Bool × List (Option Nat) :=
  match get_next_payload t with
  | none => (false, [none])
  | some item => (true, post item)

/-- C9: when the parent task finished between enqueue and dispatch,
`get_next_payload` answers the sentinel at dispatch time, so no POST is
issued and the sentinel result `[None]` is returned — the subtask never
reaches the network. -/
theorem request_datapoints_jit_skips (post : Nat → List (Option Nat))
    (t : EagerSubtask) (h : t.parentDone = true) :
    get_next_payload t = none ∧
      request_datapoints_jit post t = (false, [none]) := by
  constructor
  · simp [get_next_payload, h]
  · simp [request_datapoints_jit, get_next_payload, h]

/-- Witness for C9 at a concrete input. -/
theorem request_datapoints_jit_skips_witness :
    (⟨true, 7⟩ : EagerSubtask).parentDone = true ∧
      (get_next_payload ⟨true, 7⟩ = none ∧
        request_datapoints_jit (fun i => [some i]) ⟨true, 7⟩ = (false, [none])) :=
  ⟨rfl, request_datapoints_jit_skips (fun i => [some i]) ⟨true, 7⟩ rfl⟩

/-!
## `EagerDpsFetcher._get_result_with_exception_handling`
-/

/-- The outcome of one subtask future as the eager scheduler unwraps it:
a result (`future.result()[0]`), a `CancelledError`, or a `CogniteAPIError`
with its status code and whether it carries a non-empty `missing` set. -/
inductive FutureResult
  | ok (res : Option Nat)
  | cancelled
  | apiError (code : Nat) (missingNonempty : Bool)
deriving DecidableEq

/-- One per-series task with the fields the error handler reads. -/
structure EagerTask where
  query : TSQuery
  is_done : Bool
deriving DecidableEq

/-- `EagerDpsFetcher._cancel_futures_for_finished_ts_task`: cancel and drop
every pending future whose subtask has the given task as parent.  Futures
are `(future, parent query)` pairs; the source deletes the dictionary entry
whether or not `cancel()` succeeded. -/
def cancel_futures_for_finished_ts_task (q : TSQuery) (futures : List (Nat × TSQuery)) :
    List (Nat × TSQuery) :=
  futures.filter (fun f => !(f.2 == q))

/-- `EagerDpsFetcher._get_result_with_exception_handling`: a `CancelledError`
becomes the skip sentinel.  A `CogniteAPIError` is swallowed only when its
code is 400, it carries a non-empty missing set, and the owning query has
`ignore_unknown_ids`; the first such swallow marks the task done, deletes the
query from the task lookup and cancels the pending futures of the same task;
every other `CogniteAPIError` is re-raised. -/
def get_result_with_exception_handling (fr : FutureResult) (task : EagerTask)
    (lookup : List (TSQuery × EagerTask)) (futures : List (Nat × TSQuery)) :
    Except (Nat × Bool)
      (Option Nat × EagerTask × List (TSQuery × EagerTask) × List (Nat × TSQuery)) :=
  match fr with
  | .ok res => .ok (res, task, lookup, futures)
  | .cancelled => .ok (none, task, lookup, futures)
  | .apiError code missingNonempty =>
    if code = 400 ∧ missingNonempty = true ∧ task.query.ignore_unknown_ids = true then
      if task.is_done then .ok (none, task, lookup, futures)
      else
        .ok (none, { task with is_done := true },
          lookup.filter (fun p => !(p.1 == task.query)),
          cancel_futures_for_finished_ts_task task.query futures)
    else .error (code, missingNonempty)

/-- C7: a `CogniteAPIError` from a subtask future is swallowed exactly when
its code is 400, its missing set is non-empty and the owning query has
`ignore_unknown_ids=true`; in that case (the task not yet marked done by an
earlier swallow) the task is marked done, removed from the task lookup, and
all of its still-pending futures are cancelled and dropped; every other
`CogniteAPIError` is re-raised. -/
theorem get_result_with_exception_handling_correct (code : Nat)
    (missingNonempty : Bool) (task : EagerTask)
    (lookup : List (TSQuery × EagerTask)) (futures : List (Nat × TSQuery))
    (hnotdone : task.is_done = false) :
    ((∃ e, get_result_with_exception_handling (.apiError code missingNonempty)
          task lookup futures = .error e) ↔
        ¬ (code = 400 ∧ missingNonempty = true ∧
            task.query.ignore_unknown_ids = true)) ∧
      (code = 400 ∧ missingNonempty = true ∧ task.query.ignore_unknown_ids = true →
        get_result_with_exception_handling (.apiError code missingNonempty)
            task lookup futures =
          .ok (none, { task with is_done := true },
            lookup.filter (fun p => !(p.1 == task.query)),
            futures.filter (fun f => !(f.2 == task.query))) ∧
        (∀ p ∈ lookup.filter (fun p => !(p.1 == task.query)), p.1 ≠ task.query) ∧
        (∀ f ∈ futures.filter (fun f => !(f.2 == task.query)), f.2 ≠ task.query)) := by
  constructor
  · constructor
    · rintro ⟨e, he⟩ hcond
      rw [get_result_with_exception_handling] at he
      simp only [hcond, if_true, hnotdone, if_false] at he
      cases he
    · intro hcond
      refine ⟨(code, missingNonempty), ?_⟩
      rw [get_result_with_exception_handling]
      simp only [hcond, if_false]
  · intro hcond
    refine ⟨?_, ?_, ?_⟩
    · rw [get_result_with_exception_handling]
      simp only [hcond, if_true, hnotdone, if_false]
      rfl
    · intro p hp
      have := (List.mem_filter.mp hp).2
      simpa using this
    · intro f hf
      have := (List.mem_filter.mp hf).2
      simpa using this

/-- Concrete query for the C7 witness. -/
def wQuery : TSQuery := ⟨Ident.byId 3, true, true, 5, 5⟩

/-- Concrete unfinished task for the C7 witness. -/
def wTask : EagerTask := ⟨wQuery, false⟩

/-- Concrete lookup for the C7 witness. -/
def wLookup : List (TSQuery × EagerTask) := [(wQuery, wTask)]

/-- Concrete pending futures for the C7 witness. -/
def wFutures : List (Nat × TSQuery) := [(0, wQuery)]

/-- Witness for C7 at a concrete input: a 400 missing-id error on a query
with `ignore_unknown_ids=true`, one lookup entry and one pending future. -/
theorem get_result_with_exception_handling_correct_witness :
    wTask.is_done = false ∧
      (((∃ e, get_result_with_exception_handling (.apiError 400 true)
            wTask wLookup wFutures = .error e) ↔
          ¬ ((400 : Nat) = 400 ∧ true = true ∧
              wTask.query.ignore_unknown_ids = true)) ∧
        ((400 : Nat) = 400 ∧ true = true ∧ wTask.query.ignore_unknown_ids = true →
          get_result_with_exception_handling (.apiError 400 true)
              wTask wLookup wFutures =
            .ok (none, { wTask with is_done := true },
              wLookup.filter (fun p => !(p.1 == wTask.query)),
              wFutures.filter (fun f => !(f.2 == wTask.query))) ∧
          (∀ p ∈ wLookup.filter (fun p => !(p.1 == wTask.query)),
            p.1 ≠ wTask.query) ∧
          (∀ f ∈ wFutures.filter (fun f => !(f.2 == wTask.query)),
            f.2 ≠ wTask.query))) :=
  ⟨rfl, get_result_with_exception_handling_correct 400 true wTask wLookup wFutures rfl⟩

/-!
## `EagerDpsFetcher.fetch_all` and `ChunkingDpsFetcher.fetch_all`

The subtask layer (`datapoint_tasks.py`) is not among the analysed sources.
Modelled from the spec: `split_into_subtasks` returns at least one subtask
covering the query range — modelled as exactly one subtask per query — and
`store_partial_result` absorbs a full server page, after which the subtask
and its parent task are done.  The server is an identifier oracle `missing`:
in Eager mode (`ignoreUnknownIds=false`) a request for a missing series
fails with a 400 error carrying the missing set, and in Chunking Phase A
(`ignoreUnknownIds=true`) a batch request returns one item per non-missing
requested series, in request order.  Task objects are identified with their
queries; the eager task lookup is the per-position presence flag list. -/

/-- Whether the query at position `j` names a missing series. -/
def missingAt (missing : Ident → Bool) (queries : List TSQuery) (j : Nat) : Bool :=
  match queries[j]? with
  | some q => missing q.ident
  | none => false

/-- One eager scheduler iteration, processing the completed future of the
subtask of the query at position `i`: a tolerated missing series is marked
done and deleted from the lookup (its flag cleared), an untolerated one
re-raises the 400 error, and a returned page completes the task without
touching the lookup. -/
def eagerStep (missing : Ident → Bool) (queries : List TSQuery)
    (flags : List Bool) (i : Nat) : Except Unit (List Bool) :=
  match queries[i]? with
  | none => .ok flags
  | some q =>
    if missing q.ident then
      if q.ignore_unknown_ids then .ok (flags.set i false) else .error ()
    else .ok flags

/-- `EagerDpsFetcher.fetch_all`: one task and one subtask future per query,
completions consumed in the order given by `order`, and finally
`list(filter(None, map(ts_task_lookup.get, all_queries)))` — the tasks still
in the lookup, in `all_queries` order. -/
def eager_fetch_all (missing : Ident → Bool) (queries : List TSQuery)
    (order : List Nat) : Except Unit (List TSQuery) := do
  let flags ← order.foldlM (eagerStep missing queries) (List.replicate queries.length true)
  pure (((queries.zip flags).filter (·.2)).map (·.1))

theorem eager_foldlM_spec (missing : Ident → Bool) (queries : List TSQuery)
    (htol : ∀ q ∈ queries, missing q.ident = true → q.ignore_unknown_ids = true) :
    ∀ (order : List Nat) (flags : List Bool), flags.length = queries.length →
      ∃ flags', order.foldlM (eagerStep missing queries) flags = Except.ok flags' ∧
        flags'.length = queries.length ∧
        ∀ j, flags'[j]? =
          if j ∈ order ∧ missingAt missing queries j = true then some false
          else flags[j]? := by
  intro order
  induction order with
  | nil =>
    intro flags hlen
    exact ⟨flags, rfl, hlen, by intro j; simp⟩
  | cons i rest ih =>
    intro flags hlen
    rw [List.foldlM_cons]
    cases hq : queries[i]? with
    | none =>
      rcases ih flags hlen with ⟨flags', hrun, hlen', hpt⟩
      refine ⟨flags', by simpa [eagerStep, hq] using hrun, hlen', ?_⟩
      intro j
      rw [hpt j]
      by_cases hji : j = i
      · subst hji
        have hm : missingAt missing queries j = false := by simp [missingAt, hq]
        simp [hm]
      · simp [List.mem_cons, hji]
    | some q =>
      have hqq : q ∈ queries := by
        have : i < queries.length := by
          by_contra hlt
          rw [List.getElem?_eq_none (by omega)] at hq
          cases hq
        rw [List.getElem?_eq_getElem this] at hq
        cases hq
        exact List.getElem_mem _
      cases hmis : missing q.ident with
      | false =>
        rcases ih flags hlen with ⟨flags', hrun, hlen', hpt⟩
        refine ⟨flags', by simpa [eagerStep, hq, hmis] using hrun, hlen', ?_⟩
        intro j
        rw [hpt j]
        by_cases hji : j = i
        · subst hji
          have hm : missingAt missing queries j = false := by simp [missingAt, hq, hmis]
          simp [hm]
        · simp [List.mem_cons, hji]
      | true =>
        have hig : q.ignore_unknown_ids = true := htol q hqq hmis
        have hilt : i < flags.length := by
          rw [hlen]
          by_contra hlt
          rw [List.getElem?_eq_none (by omega)] at hq
          cases hq
        rcases ih (flags.set i false) (by simpa using hlen) with ⟨flags', hrun, hlen', hpt⟩
        refine ⟨flags', by simpa [eagerStep, hq, hmis, hig] using hrun, hlen', ?_⟩
        intro j
        rw [hpt j]
        by_cases hji : j = i
        · subst hji
          have hm : missingAt missing queries j = true := by simp [missingAt, hq, hmis]
          by_cases hjr : j ∈ rest
          · simp [hm, hjr]
          · have : (flags.set j false)[j]? = some false := by
              rw [List.getElem?_set_self']
              simp [hilt]
            simp [hm, hjr, this]
        · have : (flags.set i false)[j]? = flags[j]? :=
            List.getElem?_set_ne (fun h => hji h.symm)
          rw [this]
          simp [List.mem_cons, hji]

theorem zip_filter_eq_filter (missing : Ident → Bool) :
    ∀ (queries : List TSQuery) (flags : List Bool), flags.length = queries.length →
      (∀ j, j < queries.length →
        flags[j]? = some (!(missingAt missing queries j))) →
      ((queries.zip flags).filter (·.2)).map (·.1) =
        queries.filter (fun q => !(missing q.ident)) := by
  intro queries
  induction queries with
  | nil => intro flags _ _; simp
  | cons q t ih =>
    intro flags hlen hpt
    cases flags with
    | nil => simp at hlen
    | cons b bs =>
      have h0 := hpt 0 (by simp)
      have hb : b = !(missing q.ident) := by
        simpa [missingAt] using h0
      have hrec := ih bs (by simpa using hlen) (fun j hj => by
        have := hpt (j + 1) (by simpa using hj)
        simpa [missingAt] using this)
      subst hb
      cases hmq : missing q.ident with
      | false => simp [List.filter_cons, hmq, hrec]
      | true => simp [List.filter_cons, hmq, hrec]

/-- C1, Eager half (helper): with every missing series tolerated and every
initial future completed exactly once (in any order), the eager fetch loop
raises nothing and returns exactly the non-missing queries, in `all_queries`
order with duplicates preserved. -/
theorem eager_fetch_all_ok (missing : Ident → Bool) (queries : List TSQuery)
    (order : List Nat)
    (hperm : order.Perm (List.range queries.length))
    (htol : ∀ q ∈ queries, missing q.ident = true → q.ignore_unknown_ids = true) :
    eager_fetch_all missing queries order =
      .ok (queries.filter (fun q => !(missing q.ident))) := by
  rcases eager_foldlM_spec missing queries htol order
      (List.replicate queries.length true) (by simp) with ⟨flags', hrun, hlen', hpt⟩
  rw [eager_fetch_all, hrun]
  have hfin : ∀ j, j < queries.length →
      flags'[j]? = some (!(missingAt missing queries j)) := by
    intro j hj
    have hmem : j ∈ order := hperm.mem_iff.mpr (List.mem_range.mpr hj)
    rw [hpt j]
    cases hm : missingAt missing queries j with
    | false => simp [hmem, hm, List.getElem?_replicate, hj]
    | true => simp [hmem, hm]
  show Except.ok (((queries.zip flags').filter (·.2)).map (·.1)) = _
  rw [zip_filter_eq_filter missing queries flags' hlen' hfin]

/-- `ChunkingDpsFetcher._handle_missing_ts`: with `not_missing` the set of
identifiers carried by the response items, keep the non-missing aggregate
and raw queries (marking `is_missing` on the others) and collect those
missing queries whose `ignore_unknown_ids` is false. -/
def handle_missing_ts (resIdents : List Ident) (aggQs rawQs : List TSQuery) :
    List TSQuery × List TSQuery × List TSQuery :=
  (aggQs.filter (fun q => decide (q.ident ∈ resIdents)),
    rawQs.filter (fun q => decide (q.ident ∈ resIdents)),
    (aggQs ++ rawQs).filter
      (fun q => !(decide (q.ident ∈ resIdents)) && !q.ignore_unknown_ids))

/-- `ChunkingDpsFetcher._create_ts_tasks_and_handle_missing` for one chunk
pair, against the identifier-level server model: the response carries one
item per requested non-missing series, in request order (aggregate items
first, then raw).  The fast path applies when no series of the chunk is
missing.  Returns the queries a task is created for (zipped with the
response) and the queries collected for raising. -/
def create_ts_tasks_and_handle_missing (missing : Ident → Bool)
    (chunkAgg chunkRaw : List TSQuery) : List TSQuery × List TSQuery :=
  let res := (chunkAgg ++ chunkRaw).filter (fun q => !(missing q.ident))
  if res.length = chunkAgg.length + chunkRaw.length then
    (chunkAgg ++ chunkRaw, [])
  else
    let h := handle_missing_ts (res.map (·.ident)) chunkAgg chunkRaw
    (h.1 ++ h.2.1, h.2.2)

theorem create_ts_tasks_canonical (missing : Ident → Bool)
    (chunkAgg chunkRaw : List TSQuery) :
    create_ts_tasks_and_handle_missing missing chunkAgg chunkRaw =
      (chunkAgg.filter (fun q => !(missing q.ident)) ++
          chunkRaw.filter (fun q => !(missing q.ident)),
        (chunkAgg ++ chunkRaw).filter
          (fun q => missing q.ident && !q.ignore_unknown_ids)) := by
  rw [create_ts_tasks_and_handle_missing]
  by_cases hfast :
      (((chunkAgg ++ chunkRaw).filter (fun q => !(missing q.ident))).length =
        chunkAgg.length + chunkRaw.length)
  · have hall : ∀ q ∈ chunkAgg ++ chunkRaw, (!(missing q.ident)) = true := by
      have hself : (chunkAgg ++ chunkRaw).filter (fun q => !(missing q.ident)) =
          chunkAgg ++ chunkRaw :=
        (List.filter_sublist _).eq_of_length (by simpa using hfast)
      exact List.filter_eq_self.mp hself
    simp only [hfast, if_true]
    have h1 : chunkAgg.filter (fun q => !(missing q.ident)) = chunkAgg :=
      List.filter_eq_self.mpr (fun q hq => hall q (List.mem_append_left _ hq))
    have h2 : chunkRaw.filter (fun q => !(missing q.ident)) = chunkRaw :=
      List.filter_eq_self.mpr (fun q hq => hall q (List.mem_append_right _ hq))
    have h3 : (chunkAgg ++ chunkRaw).filter
        (fun q => missing q.ident && !q.ignore_unknown_ids) = [] := by
      rw [List.filter_eq_nil_iff]
      intro q hq
      have := hall q hq
      simp at this
      simp [this]
    rw [h1, h2, h3]
  · simp only [hfast, if_false, handle_missing_ts]
    have hiff : ∀ q, (q ∈ chunkAgg ∨ q ∈ chunkRaw) →
        (decide (q.ident ∈
          (((chunkAgg ++ chunkRaw).filter (fun x => !(missing x.ident))).map
            (·.ident)))) = !(missing q.ident) := by
      intro q hq
      by_cases hm : missing q.ident = true
      · have : ¬ q.ident ∈
            (((chunkAgg ++ chunkRaw).filter (fun x => !(missing x.ident))).map
              (·.ident)) := by
          intro hmem
          rcases List.mem_map.mp hmem with ⟨q', hq', hid⟩
          have := (List.mem_filter.mp hq').2
          rw [hid] at this
          simp [hm] at this
        simp only [hm, Bool.not_true]
        exact decide_eq_false this
      · have hmem : q.ident ∈
            (((chunkAgg ++ chunkRaw).filter (fun x => !(missing x.ident))).map
              (·.ident)) := by
          apply List.mem_map.mpr
          refine ⟨q, List.mem_filter.mpr ⟨?_, by simp [hm]⟩, rfl⟩
          rcases hq with h | h
          · exact List.mem_append_left _ h
          · exact List.mem_append_right _ h
        have hm' : missing q.ident = false := by simpa using hm
        simp only [hm', Bool.not_false]
        exact decide_eq_true hmem
    have e1 : chunkAgg.filter (fun q => decide (q.ident ∈
        (((chunkAgg ++ chunkRaw).filter (fun x => !(missing x.ident))).map
          (·.ident)))) = chunkAgg.filter (fun q => !(missing q.ident)) :=
      List.filter_congr (fun q hq => hiff q (Or.inl hq))
    have e2 : chunkRaw.filter (fun q => decide (q.ident ∈
        (((chunkAgg ++ chunkRaw).filter (fun x => !(missing x.ident))).map
          (·.ident)))) = chunkRaw.filter (fun q => !(missing q.ident)) :=
      List.filter_congr (fun q hq => hiff q (Or.inr hq))
    have e3 : (chunkAgg ++ chunkRaw).filter (fun q =>
        !(decide (q.ident ∈
          (((chunkAgg ++ chunkRaw).filter (fun x => !(missing x.ident))).map
            (·.ident)))) && !q.ignore_unknown_ids) =
        (chunkAgg ++ chunkRaw).filter
          (fun q => missing q.ident && !q.ignore_unknown_ids) := by
      apply List.filter_congr
      intro q hq
      have := hiff q (by
        rcases List.mem_append.mp hq with h | h
        · exact Or.inl h
        · exact Or.inr h)
      rw [this]
      cases hm : missing q.ident <;> simp
    rw [e1, e2, e3]

/-- One Phase A completion (`for future in as_completed(initial_futures_dct)`):
append the new tasks to the lookup and the collected missing queries to
`missing_to_raise`. -/
def phaseAStep (missing : Ident → Bool) (acc : List TSQuery × List TSQuery)
    (qc : List TSQuery × List TSQuery) : List TSQuery × List TSQuery :=
  (acc.1 ++ (create_ts_tasks_and_handle_missing missing qc.1 qc.2).1,
    acc.2 ++ (create_ts_tasks_and_handle_missing missing qc.1 qc.2).2)

theorem foldl_phaseAStep (missing : Ident → Bool)
    (l : List (List TSQuery × List TSQuery)) :
    ∀ acc : List TSQuery × List TSQuery,
      l.foldl (phaseAStep missing) acc =
        (acc.1 ++ (l.map
            (fun qc => (create_ts_tasks_and_handle_missing missing qc.1 qc.2).1)).join,
          acc.2 ++ (l.map
            (fun qc => (create_ts_tasks_and_handle_missing missing qc.1 qc.2).2)).join) := by
  induction l with
  | nil => intro acc; simp
  | cons qc t ih =>
    intro acc
    rw [List.foldl_cons, ih]
    simp [phaseAStep]

theorem exists_zip_left {α β : Type} (A : List α) (B : List β)
    (hlen : A.length = B.length) {a : α} (h : a ∈ A) : ∃ b, (a, b) ∈ A.zip B := by
  induction A generalizing B with
  | nil => cases h
  | cons x t ih =>
    cases B with
    | nil => simp at hlen
    | cons b bs =>
      rcases List.mem_cons.mp h with rfl | hm
      · exact ⟨b, by simp⟩
      · rcases ih bs (by simpa using hlen) hm with ⟨y, hy⟩
        exact ⟨y, by simp [hy]⟩

theorem exists_zip_right {α β : Type} (A : List α) (B : List β)
    (hlen : A.length = B.length) {b : β} (h : b ∈ B) : ∃ a, (a, b) ∈ A.zip B := by
  induction A generalizing B with
  | nil =>
    cases B with
    | nil => cases h
    | cons y ys => simp at hlen
  | cons x t ih =>
    cases B with
    | nil => cases h
    | cons y ys =>
      rcases List.mem_cons.mp h with rfl | hm
      · exact ⟨x, by simp⟩
      · rcases ih ys (by simpa using hlen) hm with ⟨a, ha⟩
        exact ⟨a, by simp [ha]⟩

/-- `ChunkingDpsFetcher.fetch_all` (Phase A and assembly): split the flavor
lists into chunk pairs, create tasks and collect missing series per
completed initial request, raise one `CogniteNotFoundError` naming every
collected identifier if any, otherwise run Phase B — which only mutates the
existing tasks, lines 264-273 of the source never add or remove lookup keys
— and return the tasks of `all_queries` present in the lookup, in order. -/
def chunking_fetch_all (missing : Ident → Bool) (maxWorkers : Nat)
    (allQ aggQ rawQ : List TSQuery) : Except (List Ident) (List TSQuery) :=
  let n := max maxWorkers ((allQ.length + (FETCH_TS_LIMIT - 1)) / FETCH_TS_LIMIT)
  let acc := ((split_into_n_parts n aggQ).zip (split_into_n_parts n rawQ)).foldl
    (phaseAStep missing) ([], [])
  if acc.2.isEmpty then .ok (allQ.filter (fun q => decide (q ∈ acc.1)))
  else .error (acc.2.map (·.ident))

/-- Membership in the concatenated task-lookup keys of Phase A. -/
theorem chunking_keys_mem (missing : Ident → Bool) (n : Nat) (hn : 1 ≤ n)
    (aggQ rawQ : List TSQuery) (q : TSQuery) :
    q ∈ ((((split_into_n_parts n aggQ).zip (split_into_n_parts n rawQ)).map
        (fun qc => (create_ts_tasks_and_handle_missing missing qc.1 qc.2).1)).join) ↔
      ((q ∈ aggQ ∨ q ∈ rawQ) ∧ missing q.ident = false) := by
  obtain ⟨m, rfl⟩ : ∃ m, n = m + 1 := ⟨n - 1, by omega⟩
  constructor
  · intro h
    rcases List.mem_join.mp h with ⟨part, hpart, hqp⟩
    rcases List.mem_map.mp hpart with ⟨qc, hqc, rfl⟩
    rw [create_ts_tasks_canonical] at hqp
    have hz := List.mem_zip hqc
    rcases List.mem_append.mp hqp with h1 | h1
    · have := List.mem_filter.mp h1
      refine ⟨Or.inl (split_into_n_parts_subset _ aggQ qc.1 hz.1 q this.1), ?_⟩
      simpa using this.2
    · have := List.mem_filter.mp h1
      refine ⟨Or.inr (split_into_n_parts_subset _ rawQ qc.2 hz.2 q this.1), ?_⟩
      simpa using this.2
  · rintro ⟨hq, hm⟩
    have hlens : (split_into_n_parts (m + 1) aggQ).length =
        (split_into_n_parts (m + 1) rawQ).length := by
      rw [split_into_n_parts_length, split_into_n_parts_length]
    rcases hq with hq | hq
    · have : q ∈ (split_into_n_parts (m + 1) aggQ).join := by
        rw [split_into_n_parts_join]; exact hq
      rcases List.mem_join.mp this with ⟨part, hpart, hqp⟩
      rcases exists_zip_left _ _ hlens hpart with ⟨b, hzip⟩
      apply List.mem_join.mpr
      refine ⟨(create_ts_tasks_and_handle_missing missing part b).1,
        List.mem_map.mpr ⟨(part, b), hzip, rfl⟩, ?_⟩
      rw [create_ts_tasks_canonical]
      exact List.mem_append_left _ (List.mem_filter.mpr ⟨hqp, by simp [hm]⟩)
    · have : q ∈ (split_into_n_parts (m + 1) rawQ).join := by
        rw [split_into_n_parts_join]; exact hq
      rcases List.mem_join.mp this with ⟨part, hpart, hqp⟩
      rcases exists_zip_right _ _ hlens hpart with ⟨a, hzip⟩
      apply List.mem_join.mpr
      refine ⟨(create_ts_tasks_and_handle_missing missing a part).1,
        List.mem_map.mpr ⟨(a, part), hzip, rfl⟩, ?_⟩
      rw [create_ts_tasks_canonical]
      exact List.mem_append_right _ (List.mem_filter.mpr ⟨hqp, by simp [hm]⟩)

/-- Membership in the collected `missing_to_raise` queries of Phase A. -/
theorem chunking_raise_mem (missing : Ident → Bool) (n : Nat) (hn : 1 ≤ n)
    (aggQ rawQ : List TSQuery) (q : TSQuery) :
    q ∈ ((((split_into_n_parts n aggQ).zip (split_into_n_parts n rawQ)).map
        (fun qc => (create_ts_tasks_and_handle_missing missing qc.1 qc.2).2)).join) ↔
      ((q ∈ aggQ ∨ q ∈ rawQ) ∧ missing q.ident = true ∧
        q.ignore_unknown_ids = false) := by
  obtain ⟨m, rfl⟩ : ∃ m, n = m + 1 := ⟨n - 1, by omega⟩
  constructor
  · intro h
    rcases List.mem_join.mp h with ⟨part, hpart, hqp⟩
    rcases List.mem_map.mp hpart with ⟨qc, hqc, rfl⟩
    rw [create_ts_tasks_canonical] at hqp
    have hz := List.mem_zip hqc
    have := List.mem_filter.mp hqp
    have hcond : missing q.ident = true ∧ q.ignore_unknown_ids = false := by
      have h2 := this.2
      constructor
      · cases hmm : missing q.ident
        · rw [hmm] at h2; simp at h2
        · rfl
      · cases hii : q.ignore_unknown_ids
        · rfl
        · rw [hii] at h2; simp at h2
    rcases List.mem_append.mp this.1 with h1 | h1
    · exact ⟨Or.inl (split_into_n_parts_subset _ aggQ qc.1 hz.1 q h1), hcond⟩
    · exact ⟨Or.inr (split_into_n_parts_subset _ rawQ qc.2 hz.2 q h1), hcond⟩
  · rintro ⟨hq, hm, hig⟩
    have hlens : (split_into_n_parts (m + 1) aggQ).length =
        (split_into_n_parts (m + 1) rawQ).length := by
      rw [split_into_n_parts_length, split_into_n_parts_length]
    rcases hq with hq | hq
    · have : q ∈ (split_into_n_parts (m + 1) aggQ).join := by
        rw [split_into_n_parts_join]; exact hq
      rcases List.mem_join.mp this with ⟨part, hpart, hqp⟩
      rcases exists_zip_left _ _ hlens hpart with ⟨b, hzip⟩
      apply List.mem_join.mpr
      refine ⟨(create_ts_tasks_and_handle_missing missing part b).2,
        List.mem_map.mpr ⟨(part, b), hzip, rfl⟩, ?_⟩
      rw [create_ts_tasks_canonical]
      exact List.mem_filter.mpr ⟨List.mem_append_left _ hqp, by simp [hm, hig]⟩
    · have : q ∈ (split_into_n_parts (m + 1) rawQ).join := by
        rw [split_into_n_parts_join]; exact hq
      rcases List.mem_join.mp this with ⟨part, hpart, hqp⟩
      rcases exists_zip_right _ _ hlens hpart with ⟨a, hzip⟩
      apply List.mem_join.mpr
      refine ⟨(create_ts_tasks_and_handle_missing missing a part).2,
        List.mem_map.mpr ⟨(a, part), hzip, rfl⟩, ?_⟩
      rw [create_ts_tasks_canonical]
      exact List.mem_filter.mpr ⟨List.mem_append_right _ hqp, by simp [hm, hig]⟩

/-- The task-lookup keys accumulated over all Phase A completions. -/
def phaseAKeys (missing : Ident → Bool) (n : Nat) (aggQ rawQ : List TSQuery) :
    List TSQuery :=
  (((split_into_n_parts n aggQ).zip (split_into_n_parts n rawQ)).map
    (fun qc => (create_ts_tasks_and_handle_missing missing qc.1 qc.2).1)).join

/-- The `missing_to_raise` queries accumulated over all Phase A completions. -/
def phaseARaise (missing : Ident → Bool) (n : Nat) (aggQ rawQ : List TSQuery) :
    List TSQuery :=
  (((split_into_n_parts n aggQ).zip (split_into_n_parts n rawQ)).map
    (fun qc => (create_ts_tasks_and_handle_missing missing qc.1 qc.2).2)).join

theorem chunking_fetch_all_eq (missing : Ident → Bool) (mw : Nat)
    (allQ aggQ rawQ : List TSQuery) :
    chunking_fetch_all missing mw allQ aggQ rawQ =
      if (phaseARaise missing
          (max mw ((allQ.length + (FETCH_TS_LIMIT - 1)) / FETCH_TS_LIMIT))
          aggQ rawQ).isEmpty then
        .ok (allQ.filter (fun q => decide (q ∈ phaseAKeys missing
          (max mw ((allQ.length + (FETCH_TS_LIMIT - 1)) / FETCH_TS_LIMIT))
          aggQ rawQ)))
      else
        .error ((phaseARaise missing
          (max mw ((allQ.length + (FETCH_TS_LIMIT - 1)) / FETCH_TS_LIMIT))
          aggQ rawQ).map (·.ident)) := by
  rw [chunking_fetch_all]
  rw [foldl_phaseAStep]
  simp [phaseAKeys, phaseARaise]

theorem phaseAKeys_mem (missing : Ident → Bool) (n : Nat) (hn : 1 ≤ n)
    (aggQ rawQ : List TSQuery) (q : TSQuery) :
    q ∈ phaseAKeys missing n aggQ rawQ ↔
      ((q ∈ aggQ ∨ q ∈ rawQ) ∧ missing q.ident = false) :=
  chunking_keys_mem missing n hn aggQ rawQ q

theorem phaseARaise_mem (missing : Ident → Bool) (n : Nat) (hn : 1 ≤ n)
    (aggQ rawQ : List TSQuery) (q : TSQuery) :
    q ∈ phaseARaise missing n aggQ rawQ ↔
      ((q ∈ aggQ ∨ q ∈ rawQ) ∧ missing q.ident = true ∧
        q.ignore_unknown_ids = false) :=
  chunking_raise_mem missing n hn aggQ rawQ q

theorem mem_flavor_iff (allQ : List TSQuery) (q : TSQuery) :
    (q ∈ allQ.filter (fun q => !q.is_raw_query) ∨
        q ∈ allQ.filter (fun q => q.is_raw_query)) ↔ q ∈ allQ := by
  constructor
  · rintro (h | h) <;> exact (List.mem_filter.mp h).1
  · intro h
    cases hr : q.is_raw_query with
    | false => exact Or.inl (List.mem_filter.mpr ⟨h, by simp [hr]⟩)
    | true => exact Or.inr (List.mem_filter.mpr ⟨h, by simp [hr]⟩)

/-- C6: in Chunking mode, missing series are detected per completed initial
request and collected across all Phase A batches; after every initial future
has been folded in, exactly one not-found error is raised — carrying exactly
the identifiers of the missing queries with `ignore_unknown_ids=false` — if
and only if such a query exists; otherwise fetch succeeds and the task
lookup contains exactly the non-missing queries, so missing queries with
`ignore_unknown_ids=true` get no task and raise nothing. -/
theorem chunking_missing_handling (missing : Ident → Bool) (mw : Nat)
    (allQ : List TSQuery) (hmw : 1 ≤ mw) :
    ((∃ l, chunking_fetch_all missing mw allQ
          (allQ.filter (fun q => !q.is_raw_query))
          (allQ.filter (fun q => q.is_raw_query)) = .error l) ↔
        ∃ q ∈ allQ, missing q.ident = true ∧ q.ignore_unknown_ids = false) ∧
      (∀ l, chunking_fetch_all missing mw allQ
          (allQ.filter (fun q => !q.is_raw_query))
          (allQ.filter (fun q => q.is_raw_query)) = .error l →
        ∀ i, i ∈ l ↔ ∃ q ∈ allQ, q.ident = i ∧ missing q.ident = true ∧
          q.ignore_unknown_ids = false) ∧
      (∀ ts, chunking_fetch_all missing mw allQ
          (allQ.filter (fun q => !q.is_raw_query))
          (allQ.filter (fun q => q.is_raw_query)) = .ok ts →
        ∀ q, q ∈ ts ↔ q ∈ allQ ∧ missing q.ident = false) := by
  set n := max mw ((allQ.length + (FETCH_TS_LIMIT - 1)) / FETCH_TS_LIMIT) with hnn
  have hn : 1 ≤ n := le_trans hmw (le_max_left _ _)
  have hR := fun q => phaseARaise_mem missing n hn
    (allQ.filter (fun q => !q.is_raw_query)) (allQ.filter (fun q => q.is_raw_query)) q
  have hK := fun q => phaseAKeys_mem missing n hn
    (allQ.filter (fun q => !q.is_raw_query)) (allQ.filter (fun q => q.is_raw_query)) q
  have hEq := chunking_fetch_all_eq missing mw allQ
    (allQ.filter (fun q => !q.is_raw_query)) (allQ.filter (fun q => q.is_raw_query))
  rw [← hnn] at hEq
  by_cases hempty : (phaseARaise missing n
      (allQ.filter (fun q => !q.is_raw_query))
      (allQ.filter (fun q => q.is_raw_query))).isEmpty = true
  · rw [hempty] at hEq
    rw [if_pos rfl] at hEq
    have hnomem : ∀ q, ¬ (q ∈ allQ ∧ missing q.ident = true ∧
        q.ignore_unknown_ids = false) := by
      rintro q ⟨hq, hm, hi⟩
      have : q ∈ phaseARaise missing n
          (allQ.filter (fun q => !q.is_raw_query))
          (allQ.filter (fun q => q.is_raw_query)) :=
        (hR q).mpr ⟨(mem_flavor_iff allQ q).mpr hq, hm, hi⟩
      rw [List.isEmpty_iff] at hempty
      rw [hempty] at this
      cases this
    refine ⟨?_, ?_, ?_⟩
    · constructor
      · rintro ⟨l, hl⟩
        rw [hEq] at hl
        cases hl
      · rintro ⟨q, hq, hm, hi⟩
        exact absurd ⟨hq, hm, hi⟩ (hnomem q)
    · intro l hl
      rw [hEq] at hl
      cases hl
    · intro ts hts q
      rw [hEq] at hts
      cases hts
      constructor
      · intro hq
        have := List.mem_filter.mp hq
        have hk := (hK q).mp (by simpa using this.2)
        exact ⟨this.1, hk.2⟩
      · rintro ⟨hq, hm⟩
        refine List.mem_filter.mpr ⟨hq, ?_⟩
        simp only [decide_eq_true_eq]
        exact (hK q).mpr ⟨(mem_flavor_iff allQ q).mpr hq, hm⟩
  · rw [if_neg (by simpa using hempty)] at hEq
    refine ⟨?_, ?_, ?_⟩
    · constructor
      · rintro ⟨l, _⟩
        rcases List.exists_mem_of_ne_nil _
            (by simpa [List.isEmpty_iff] using hempty) with ⟨q, hq⟩
        rcases (hR q).mp hq with ⟨hor, hm, hi⟩
        exact ⟨q, (mem_flavor_iff allQ q).mp hor, hm, hi⟩
      · intro _
        exact ⟨_, hEq⟩
    · intro l hl i
      rw [hEq] at hl
      cases hl
      constructor
      · intro hi
        rcases List.mem_map.mp hi with ⟨q, hq, rfl⟩
        rcases (hR q).mp hq with ⟨hor, hm, hig⟩
        exact ⟨q, (mem_flavor_iff allQ q).mp hor, rfl, hm, hig⟩
      · rintro ⟨q, hq, rfl, hm, hig⟩
        exact List.mem_map.mpr ⟨q, (hR q).mpr
          ⟨(mem_flavor_iff allQ q).mpr hq, hm, hig⟩, rfl⟩
    · intro ts hts
      rw [hEq] at hts
      cases hts

/-- Concrete server oracle for the Phase A witnesses: series 9 is missing. -/
def wMissing : Ident → Bool := fun i => i == Ident.byId 9

/-- Concrete query list for the C6 witness: one existing raw series and one
missing raw series that must be raised. -/
def c6AllQ : List TSQuery :=
  [⟨Ident.byId 1, true, false, 5, 5⟩, ⟨Ident.byId 9, true, false, 5, 5⟩]

/-- Witness for C6 at a concrete input. -/
theorem chunking_missing_handling_witness :
    (1 : Nat) ≤ 2 ∧
      (((∃ l, chunking_fetch_all wMissing 2 c6AllQ
            (c6AllQ.filter (fun q => !q.is_raw_query))
            (c6AllQ.filter (fun q => q.is_raw_query)) = .error l) ↔
          ∃ q ∈ c6AllQ, wMissing q.ident = true ∧ q.ignore_unknown_ids = false) ∧
        (∀ l, chunking_fetch_all wMissing 2 c6AllQ
            (c6AllQ.filter (fun q => !q.is_raw_query))
            (c6AllQ.filter (fun q => q.is_raw_query)) = .error l →
          ∀ i, i ∈ l ↔ ∃ q ∈ c6AllQ, q.ident = i ∧ wMissing q.ident = true ∧
            q.ignore_unknown_ids = false) ∧
        (∀ ts, chunking_fetch_all wMissing 2 c6AllQ
            (c6AllQ.filter (fun q => !q.is_raw_query))
            (c6AllQ.filter (fun q => q.is_raw_query)) = .ok ts →
          ∀ q, q ∈ ts ↔ q ∈ c6AllQ ∧ wMissing q.ident = false)) :=
  ⟨by omega, chunking_missing_handling wMissing 2 c6AllQ (by omega)⟩

/-- C1: for both fetch strategies, under every completion schedule and with
every missing series tolerated (`ignore_unknown_ids=true`), `fetch_all`
raises nothing and returns exactly the tasks of the non-missing queries, in
the order their queries appear in `all_queries` — the validator expansion
order: user queries in given order, ids before external ids, duplicates
preserved — i.e. the requested series minus the missing ones. -/
theorem fetch_all_order_and_missing (missing : Ident → Bool)
    (uqs : List UserQuery) (mw : Nat) (order : List Nat)
    (hmw : 1 ≤ mw)
    (hperm : order.Perm
      (List.range ((uqs.map validate_and_create_single_queries).join).length))
    (htol : ∀ q ∈ (uqs.map validate_and_create_single_queries).join,
      missing q.ident = true → q.ignore_unknown_ids = true) :
    eager_fetch_all missing ((uqs.map validate_and_create_single_queries).join)
        order =
      .ok (((uqs.map validate_and_create_single_queries).join).filter
        (fun q => !(missing q.ident))) ∧
    chunking_fetch_all missing mw
        ((uqs.map validate_and_create_single_queries).join)
        (((uqs.map validate_and_create_single_queries).join).filter
          (fun q => !q.is_raw_query))
        (((uqs.map validate_and_create_single_queries).join).filter
          (fun q => q.is_raw_query)) =
      .ok (((uqs.map validate_and_create_single_queries).join).filter
        (fun q => !(missing q.ident))) := by
  set allQ := (uqs.map validate_and_create_single_queries).join with hallQ
  constructor
  · exact eager_fetch_all_ok missing allQ order hperm htol
  · set n := max mw ((allQ.length + (FETCH_TS_LIMIT - 1)) / FETCH_TS_LIMIT) with hnn
    have hn : 1 ≤ n := le_trans hmw (le_max_left _ _)
    have hR := fun q => phaseARaise_mem missing n hn
      (allQ.filter (fun q => !q.is_raw_query)) (allQ.filter (fun q => q.is_raw_query)) q
    have hK := fun q => phaseAKeys_mem missing n hn
      (allQ.filter (fun q => !q.is_raw_query)) (allQ.filter (fun q => q.is_raw_query)) q
    have hEq := chunking_fetch_all_eq missing mw allQ
      (allQ.filter (fun q => !q.is_raw_query)) (allQ.filter (fun q => q.is_raw_query))
    rw [← hnn] at hEq
    have hRnil : phaseARaise missing n
        (allQ.filter (fun q => !q.is_raw_query))
        (allQ.filter (fun q => q.is_raw_query)) = [] := by
      rw [List.eq_nil_iff_forall_not_mem]
      intro q hq
      rcases (hR q).mp hq with ⟨hor, hm, hig⟩
      have := htol q ((mem_flavor_iff allQ q).mp hor) hm
      rw [this] at hig
      cases hig
    rw [hRnil] at hEq
    rw [show (([] : List TSQuery).isEmpty) = true from rfl, if_pos rfl] at hEq
    rw [hEq]
    congr 1
    apply List.filter_congr
    intro q hq
    cases hm : missing q.ident with
    | false =>
      simp only [Bool.not_false, decide_eq_true_eq]
      exact (hK q).mpr ⟨(mem_flavor_iff allQ q).mpr hq, hm⟩
    | true =>
      simp only [Bool.not_true]
      apply decide_eq_false
      intro hmem
      have := ((hK q).mp hmem).2
      rw [hm] at this
      cases this

/-- Concrete user queries for the C1 witness: one user query with one raw id
entry, one with a missing external id entry that tolerates unknown ids. -/
def c1Uqs : List UserQuery :=
  [⟨[⟨1, false, false, 5, 5⟩], []⟩, ⟨[], [⟨9, false, true, 5, 5⟩]⟩]

/-- Witness for C1 at a concrete input (the external id 9 is missing only as
`byXid 9`; the oracle marks it missing). -/
def c1Missing : Ident → Bool := fun i => i == Ident.byXid 9

/-- Witness theorem for C1: schedule `[1, 0]`, two workers. -/
theorem fetch_all_order_and_missing_witness :
    (1 : Nat) ≤ 2 ∧
      ([1, 0] : List Nat).Perm
        (List.range ((c1Uqs.map validate_and_create_single_queries).join).length) ∧
      (∀ q ∈ (c1Uqs.map validate_and_create_single_queries).join,
        c1Missing q.ident = true → q.ignore_unknown_ids = true) ∧
      (eager_fetch_all c1Missing
          ((c1Uqs.map validate_and_create_single_queries).join) [1, 0] =
        .ok (((c1Uqs.map validate_and_create_single_queries).join).filter
          (fun q => !(c1Missing q.ident))) ∧
      chunking_fetch_all c1Missing 2
          ((c1Uqs.map validate_and_create_single_queries).join)
          (((c1Uqs.map validate_and_create_single_queries).join).filter
            (fun q => !q.is_raw_query))
          (((c1Uqs.map validate_and_create_single_queries).join).filter
            (fun q => q.is_raw_query)) =
        .ok (((c1Uqs.map validate_and_create_single_queries).join).filter
          (fun q => !(c1Missing q.ident)))) :=
  ⟨by omega, by decide, by decide,
    fetch_all_order_and_missing c1Missing c1Uqs 2 [1, 0] (by omega)
      (by decide) (by decide)⟩

/-!
## `ChunkingDpsFetcher._combine_subtasks_into_requests`

The subtask pools are the two `heapq` lists; a heap exposes its minimum at
index 0 and `heappop` removes it, so each pool is kept here as a list whose
head plays the role of the heap top.  The caps invariant proved below does
not depend on the ordering of the pool.  `get_next_payload` of a Phase B
subtask is reduced to the `limit` field of the item it would return, the
only field the combiner reads (`none` is the sentinel).
-/

/-- One Phase B subtask as the combiner sees it. -/
structure CSub where
  priority : Int
  payloadLimit : Option Nat
  is_done : Bool
  is_raw_query : Bool
deriving DecidableEq

/-- One subtask-pool entry `(priority, limit, tiebreak, subtask)`.  The heap
compares the first three components lexicographically; the tiebreak is
unique in the source (`monotonic_ns() + random()`), so the subtask itself is
never compared. -/
structure PoolEntry where
  priority : Int
  limit : Nat
  tiebreak : Nat
  task : CSub
deriving DecidableEq

/-- Combiner state: the two subtask pools plus the partial payload
(`next_items`, `next_subtasks`) carried between calls. -/
structure CombineState where
  aggPool : List PoolEntry
  rawPool : List PoolEntry
  nextItems : List Nat
  nextSubtasks : List CSub
deriving DecidableEq

/-- `limit_used` for one flavor: `sum(item["limit"] for item, task in
zip(next_items, next_subtasks) if task.is_raw_query is is_raw)`. -/
def flavorSum (isRaw : Bool) (items : List Nat) (subs : List CSub) : Nat :=
  (((items.zip subs).filter (fun p => p.2.is_raw_query == isRaw)).map (·.1)).sum

/-- The dispatch priority of a combined batch:
`statistics.mean(task.priority for task in next_subtasks)`. -/
def batchPriority (subs : List CSub) : Rat :=
  (subs.map (fun s => (s.priority : Rat))).sum / (subs.length : Rat)

/-- One combined request: payload item limits, carried subtasks, dispatch
priority. -/
structure Batch where
  items : List Nat
  subtasks : List CSub
  priority : Rat
deriving DecidableEq

/-- The inner `while task_pool` loop of one flavor: stop at the item cap
(`payload_at_max_items`), discard a top whose payload is the sentinel or
which is marked done, add a fitting top to the payload under construction,
or stop with the flavor-full flag when the top does not fit.  Returns the
remaining pool, the grown payload, and the two flags. -/
def innerCombine (isRaw : Bool) (reqMax : Nat) :
    List PoolEntry → List Nat → List CSub → Nat →
      List PoolEntry × List Nat × List CSub × Bool × Bool
  | [], items, subs, _ => ([], items, subs, false, false)
  | e :: rest, items, subs, used =>
    if items.length + 1 > FETCH_TS_LIMIT then (e :: rest, items, subs, true, false)
    else
      match e.task.payloadLimit with
      | none => innerCombine isRaw reqMax rest items subs used
      | some lim =>
        if e.task.is_done then innerCombine isRaw reqMax rest items subs used
        else if used + lim ≤ reqMax then
          innerCombine isRaw reqMax rest (items ++ [lim]) (subs ++ [e.task])
            (used + lim)
        else (e :: rest, items, subs, false, true)

/-- The outcome of one outer-loop iteration: a batch was yielded, nothing
was yielded, or `statistics.mean` was applied to an empty subtask list and
raised `StatisticsError`. -/
inductive IterResult
  | emit (b : Batch) (st : CombineState)
  | noEmit (st : CombineState)
  | meanCrash
deriving DecidableEq

/-- The raw flavor of one outer iteration, entered with the pools and
payload left by the aggregate flavor and the shared `payload_is_full[0]`
flag.  An empty raw pool is skipped (`continue`), ending the flavor loop. -/
def processRaw (retPart : Bool) (aggPool rawPool : List PoolEntry)
    (items : List Nat) (subs : List CSub) (aggFull : Bool) : IterResult :=
  if rawPool.isEmpty then .noEmit ⟨aggPool, rawPool, items, subs⟩
  else
    match innerCombine true DPS_LIMIT rawPool items subs
        (flavorSum true items subs) with
    | (rawPool', items', subs', atMax, rawFull) =>
      if atMax || (aggFull && rawFull) || (aggFull && rawPool'.isEmpty)
          || (rawFull && aggPool.isEmpty)
          || (retPart && aggPool.isEmpty && rawPool'.isEmpty) then
        if subs'.isEmpty then .meanCrash
        else .emit ⟨items', subs', batchPriority subs'⟩ ⟨aggPool, rawPool', [], []⟩
      else .noEmit ⟨aggPool, rawPool', items', subs'⟩

/-- One iteration of the outer `while any(subtask_pools)` loop: aggregate
flavor first, then raw, with the `payload_is_full` flags shared between the
two; a `payload_done` emission breaks back to the outer loop.  At the
aggregate check `payload_is_full[1]` is still false, so only
`payload_at_max_items`, `payload_is_full[0] and not raw_subtask_pool`, and
the partial-payload clause can fire there; an empty aggregate pool skips the
flavor and its check (`continue`). -/
def combineIter (retPart : Bool) (st : CombineState) : IterResult :=
  if st.aggPool.isEmpty then
    processRaw retPart st.aggPool st.rawPool st.nextItems st.nextSubtasks false
  else
    match innerCombine false DPS_LIMIT_AGG st.aggPool st.nextItems st.nextSubtasks
        (flavorSum false st.nextItems st.nextSubtasks) with
    | (aggPool', items', subs', atMax, aggFull) =>
      if atMax || (aggFull && st.rawPool.isEmpty)
          || (retPart && aggPool'.isEmpty && st.rawPool.isEmpty) then
        if subs'.isEmpty then .meanCrash
        else .emit ⟨items', subs', batchPriority subs'⟩ ⟨aggPool', st.rawPool, [], []⟩
      else processRaw retPart aggPool' st.rawPool items' subs' aggFull

/-- The result of running the generator from a state: the batches yielded so
far, ending in normal exhaustion, a `StatisticsError` crash, or the fuel
bound. -/
inductive CombineRes
  | ok (batches : List Batch) (st : CombineState)
  | crash (batches : List Batch)
  | fuelOut (batches : List Batch)
deriving DecidableEq

/-- The batches a run produced, whatever its ending. -/
def CombineRes.batches : CombineRes → List Batch
  | .ok bs _ => bs
  | .crash bs => bs
  | .fuelOut bs => bs

/-- The outer `while any(self.subtask_pools)` loop, with an explicit bound
`fuel` on the number of iterations (the conclusions below hold for every
fuel). -/
def combineLoop (retPart : Bool) : Nat → CombineState → List Batch → CombineRes
  | 0, _, acc => .fuelOut acc
  | fuel + 1, st, acc =>
    if st.aggPool.isEmpty && st.rawPool.isEmpty then .ok acc st
    else
      match combineIter retPart st with
      | .meanCrash => .crash acc
      | .emit b st' => combineLoop retPart fuel st' (acc ++ [b])
      | .noEmit st' => combineLoop retPart fuel st' acc

/-- `ChunkingDpsFetcher._combine_subtasks_into_requests` from a given state. -/
def combine_subtasks_into_requests (retPart : Bool) (fuel : Nat)
    (st : CombineState) : CombineRes :=
  combineLoop retPart fuel st []

theorem flavorSum_nil (f : Bool) : flavorSum f [] [] = 0 := rfl

theorem flavorSum_append (f : Bool) (items : List Nat) (subs : List CSub)
    (lim : Nat) (t : CSub) (hlen : items.length = subs.length) :
    flavorSum f (items ++ [lim]) (subs ++ [t]) =
      flavorSum f items subs + (if t.is_raw_query == f then lim else 0) := by
  rw [flavorSum, List.zip_append hlen, List.filter_append, List.map_append,
    List.sum_append, flavorSum]
  congr 1
  cases h : (t.is_raw_query == f) <;> simp [List.filter_cons, h]

/-- The inner flavor loop preserves the payload caps: lengths stay aligned,
the item count stays within `FETCH_TS_LIMIT`, the flavor budget stays within
`reqMax`, the other flavor total is untouched, and the remaining pool is a
subset of the input pool. -/
theorem innerCombine_spec (isRaw : Bool) (reqMax : Nat) :
    ∀ (pool : List PoolEntry) (items : List Nat) (subs : List CSub)
      (pool' : List PoolEntry) (items' : List Nat) (subs' : List CSub)
      (atMax full : Bool),
      (∀ e ∈ pool, e.task.is_raw_query = isRaw) →
      items.length = subs.length →
      items.length ≤ FETCH_TS_LIMIT →
      flavorSum isRaw items subs ≤ reqMax →
      innerCombine isRaw reqMax pool items subs (flavorSum isRaw items subs) =
        (pool', items', subs', atMax, full) →
      (items'.length = subs'.length ∧
        items'.length ≤ FETCH_TS_LIMIT ∧
        flavorSum isRaw items' subs' ≤ reqMax ∧
        flavorSum (!isRaw) items' subs' = flavorSum (!isRaw) items subs ∧
        (∀ e ∈ pool', e ∈ pool)) := by
  intro pool
  induction pool with
  | nil =>
    intro items subs pool' items' subs' atMax full _ hlen hcnt hsum heq
    rw [innerCombine] at heq
    cases heq
    exact ⟨hlen, hcnt, hsum, rfl, by intro e he; cases he⟩
  | cons e rest ih =>
    intro items subs pool' items' subs' atMax full hpure hlen hcnt hsum heq
    have hpure' : ∀ x ∈ rest, x.task.is_raw_query = isRaw :=
      fun x hx => hpure x (List.mem_cons_of_mem e hx)
    have hepure : e.task.is_raw_query = isRaw := hpure e (List.mem_cons_self e rest)
    rw [innerCombine] at heq
    by_cases hmax : items.length + 1 > FETCH_TS_LIMIT
    · rw [if_pos hmax] at heq
      cases heq
      exact ⟨hlen, hcnt, hsum, rfl, fun x hx => hx⟩
    · rw [if_neg hmax] at heq
      cases hpl : e.task.payloadLimit with
      | none =>
        rw [hpl] at heq
        rcases ih items subs pool' items' subs' atMax full hpure' hlen hcnt hsum heq
          with ⟨h1, h2, h3, h4, h5⟩
        exact ⟨h1, h2, h3, h4, fun x hx => List.mem_cons_of_mem e (h5 x hx)⟩
      | some lim =>
        rw [hpl] at heq
        simp only at heq
        by_cases hdone : e.task.is_done = true
        · rw [if_pos hdone] at heq
          rcases ih items subs pool' items' subs' atMax full hpure' hlen hcnt hsum heq
            with ⟨h1, h2, h3, h4, h5⟩
          exact ⟨h1, h2, h3, h4, fun x hx => List.mem_cons_of_mem e (h5 x hx)⟩
        · rw [if_neg hdone] at heq
          by_cases hfit : flavorSum isRaw items subs + lim ≤ reqMax
          · rw [if_pos hfit] at heq
            have hself : (e.task.is_raw_query == isRaw) = true := by
              simp [hepure]
            have hother : (e.task.is_raw_query == !isRaw) = false := by
              rw [hepure]
              cases isRaw <;> rfl
            have hnew : flavorSum isRaw (items ++ [lim]) (subs ++ [e.task]) =
                flavorSum isRaw items subs + lim := by
              rw [flavorSum_append isRaw items subs lim e.task hlen, hself]
              simp
            have heq' : innerCombine isRaw reqMax rest (items ++ [lim])
                (subs ++ [e.task])
                (flavorSum isRaw (items ++ [lim]) (subs ++ [e.task])) =
                (pool', items', subs', atMax, full) := by
              rw [hnew]
              exact heq
            rcases ih (items ++ [lim]) (subs ++ [e.task]) pool' items' subs'
              atMax full hpure' (by simp [hlen]) (by simp; omega)
              (by rw [hnew]; exact hfit) heq' with ⟨h1, h2, h3, h4, h5⟩
            refine ⟨h1, h2, h3, ?_, fun x hx => List.mem_cons_of_mem e (h5 x hx)⟩
            rw [h4, flavorSum_append (!isRaw) items subs lim e.task hlen, hother]
            simp
          · rw [if_neg hfit] at heq
            cases heq
            exact ⟨hlen, hcnt, hsum, rfl, fun x hx => hx⟩

/-- The caps every emitted batch must satisfy. -/
def GoodBatch (b : Batch) : Prop :=
  flavorSum true b.items b.subtasks ≤ DPS_LIMIT ∧
    flavorSum false b.items b.subtasks ≤ DPS_LIMIT_AGG ∧
    b.items.length ≤ FETCH_TS_LIMIT

/-- The state invariant of the combiner: the carried partial payload is
aligned and within all three caps, and each pool holds only subtasks of its
flavor (`_add_to_subtask_pools` pushes into `subtask_pools[task.is_raw_query]`). -/
def CombineInv (st : CombineState) : Prop :=
  st.nextItems.length = st.nextSubtasks.length ∧
    st.nextItems.length ≤ FETCH_TS_LIMIT ∧
    flavorSum true st.nextItems st.nextSubtasks ≤ DPS_LIMIT ∧
    flavorSum false st.nextItems st.nextSubtasks ≤ DPS_LIMIT_AGG ∧
    (∀ e ∈ st.aggPool, e.task.is_raw_query = false) ∧
    (∀ e ∈ st.rawPool, e.task.is_raw_query = true)

theorem processRaw_spec (retPart : Bool) (aggPool rawPool : List PoolEntry)
    (items : List Nat) (subs : List CSub) (aggFull : Bool)
    (hlen : items.length = subs.length)
    (hcnt : items.length ≤ FETCH_TS_LIMIT)
    (hraw : flavorSum true items subs ≤ DPS_LIMIT)
    (hagg : flavorSum false items subs ≤ DPS_LIMIT_AGG)
    (hpa : ∀ e ∈ aggPool, e.task.is_raw_query = false)
    (hpr : ∀ e ∈ rawPool, e.task.is_raw_query = true) :
    (∀ b st', processRaw retPart aggPool rawPool items subs aggFull =
        .emit b st' → GoodBatch b ∧ CombineInv st') ∧
      (∀ st', processRaw retPart aggPool rawPool items subs aggFull =
        .noEmit st' → CombineInv st') := by
  rw [processRaw]
  by_cases hre : rawPool.isEmpty = true
  · rw [if_pos hre]
    constructor
    · intro b st' h; cases h
    · intro st' h
      cases h
      exact ⟨hlen, hcnt, hraw, hagg, hpa, hpr⟩
  · rw [if_neg hre]
    rcases hI : innerCombine true DPS_LIMIT rawPool items subs
        (flavorSum true items subs) with ⟨rawPool', items', subs', atMax, rawFull⟩
    rcases innerCombine_spec true DPS_LIMIT rawPool items subs rawPool' items'
        subs' atMax rawFull hpr hlen hcnt hraw hI with ⟨h1, h2, h3, h4, h5⟩
    have hagg' : flavorSum false items' subs' ≤ DPS_LIMIT_AGG := by
      have : flavorSum false items' subs' = flavorSum false items subs := by
        simpa using h4
      rw [this]; exact hagg
    simp only [hI]
    by_cases hdone : (atMax || (aggFull && rawFull) || (aggFull && rawPool'.isEmpty)
        || (rawFull && aggPool.isEmpty)
        || (retPart && aggPool.isEmpty && rawPool'.isEmpty)) = true
    · rw [if_pos hdone]
      by_cases hce : subs'.isEmpty = true
      · rw [if_pos hce]
        refine ⟨?_, ?_⟩
        · intro b st' h; cases h
        · intro st' h; cases h
      · rw [if_neg hce]
        constructor
        · intro b st' h
          cases h
          refine ⟨⟨h3, hagg', h2⟩, ?_⟩
          exact ⟨rfl, by simp [FETCH_TS_LIMIT], by simp [flavorSum_nil],
            by simp [flavorSum_nil], hpa, fun e he => hpr e (h5 e he)⟩
        · intro st' h; cases h
    · rw [if_neg hdone]
      constructor
      · intro b st' h; cases h
      · intro st' h
        cases h
        exact ⟨h1, h2, h3, hagg', hpa, fun e he => hpr e (h5 e he)⟩

theorem combineIter_spec (retPart : Bool) (st : CombineState)
    (hinv : CombineInv st) :
    (∀ b st', combineIter retPart st = .emit b st' → GoodBatch b ∧ CombineInv st') ∧
      (∀ st', combineIter retPart st = .noEmit st' → CombineInv st') := by
  rcases hinv with ⟨hlen, hcnt, hraw, hagg, hpa, hpr⟩
  rw [combineIter]
  by_cases hae : st.aggPool.isEmpty = true
  · rw [if_pos hae]
    exact processRaw_spec retPart st.aggPool st.rawPool st.nextItems
      st.nextSubtasks false hlen hcnt hraw hagg hpa hpr
  · rw [if_neg hae]
    rcases hI : innerCombine false DPS_LIMIT_AGG st.aggPool st.nextItems
        st.nextSubtasks (flavorSum false st.nextItems st.nextSubtasks) with
      ⟨aggPool', items', subs', atMax, aggFull⟩
    rcases innerCombine_spec false DPS_LIMIT_AGG st.aggPool st.nextItems
        st.nextSubtasks aggPool' items' subs' atMax aggFull hpa hlen hcnt hagg hI
      with ⟨h1, h2, h3, h4, h5⟩
    have hraw' : flavorSum true items' subs' ≤ DPS_LIMIT := by
      have : flavorSum true items' subs' = flavorSum true st.nextItems st.nextSubtasks := by
        simpa using h4
      rw [this]; exact hraw
    simp only [hI]
    by_cases hdone : (atMax || (aggFull && st.rawPool.isEmpty)
        || (retPart && aggPool'.isEmpty && st.rawPool.isEmpty)) = true
    · rw [if_pos hdone]
      by_cases hce : subs'.isEmpty = true
      · rw [if_pos hce]
        refine ⟨?_, ?_⟩
        · intro b st' h; cases h
        · intro st' h; cases h
      · rw [if_neg hce]
        constructor
        · intro b st' h
          cases h
          refine ⟨⟨hraw', h3, h2⟩, ?_⟩
          exact ⟨rfl, by simp [FETCH_TS_LIMIT], by simp [flavorSum_nil],
            by simp [flavorSum_nil], fun e he => hpa e (h5 e he), hpr⟩
        · intro st' h; cases h
    · rw [if_neg hdone]
      exact processRaw_spec retPart aggPool' st.rawPool items' subs' aggFull
        h1 h2 hraw' h3 (fun e he => hpa e (h5 e he)) hpr

theorem combineLoop_batches_good (retPart : Bool) :
    ∀ (fuel : Nat) (st : CombineState) (acc : List Batch),
      CombineInv st → (∀ b ∈ acc, GoodBatch b) →
      ∀ b ∈ (combineLoop retPart fuel st acc).batches, GoodBatch b := by
  intro fuel
  induction fuel with
  | zero =>
    intro st acc _ hacc b hb
    exact hacc b hb
  | succ fuel ih =>
    intro st acc hinv hacc b hb
    rw [combineLoop] at hb
    by_cases hpe : (st.aggPool.isEmpty && st.rawPool.isEmpty) = true
    · rw [if_pos hpe] at hb
      exact hacc b hb
    · rw [if_neg hpe] at hb
      cases hit : combineIter retPart st with
      | emit b' st' =>
        simp only [hit] at hb
        rcases (combineIter_spec retPart st hinv).1 b' st' hit with ⟨hgood, hinv'⟩
        refine ih st' (acc ++ [b']) hinv' ?_ b hb
        intro x hx
        rcases List.mem_append.mp hx with h | h
        · exact hacc x h
        · rcases List.mem_cons.mp h with rfl | hfalse
          · exact hgood
          · cases hfalse
      | noEmit st' =>
        simp only [hit] at hb
        exact ih st' acc ((combineIter_spec retPart st hinv).2 st' hit) hacc b hb
      | meanCrash =>
        simp only [hit, CombineRes.batches] at hb
        exact hacc b hb

/-- C2: from any state satisfying the combiner invariant (in particular the
empty partial payload the fetcher starts with), every combined batch the
generator yields satisfies all three request caps simultaneously: raw limit
total at most `DPS_LIMIT`, aggregate limit total at most `DPS_LIMIT_AGG`,
and item count at most `FETCH_TS_LIMIT`. -/
theorem combine_subtasks_into_requests_caps (retPart : Bool) (fuel : Nat)
    (st : CombineState) (hinv : CombineInv st) :
    ∀ b ∈ (combine_subtasks_into_requests retPart fuel st).batches,
      flavorSum true b.items b.subtasks ≤ DPS_LIMIT ∧
        flavorSum false b.items b.subtasks ≤ DPS_LIMIT_AGG ∧
        b.items.length ≤ FETCH_TS_LIMIT := by
  intro b hb
  exact combineLoop_batches_good retPart fuel st [] hinv (by intro x hx; cases hx) b hb

/-- Concrete combiner state for the C2 witness: one live raw subtask, empty
carried payload. -/
def c2St : CombineState :=
  ⟨[], [⟨0, 5, 0, ⟨0, some 5, false, true⟩⟩], [], []⟩

/-- Witness for C2 at a concrete state. -/
theorem combine_subtasks_into_requests_caps_witness :
    CombineInv c2St ∧
      ∀ b ∈ (combine_subtasks_into_requests true 2 c2St).batches,
        flavorSum true b.items b.subtasks ≤ DPS_LIMIT ∧
          flavorSum false b.items b.subtasks ≤ DPS_LIMIT_AGG ∧
          b.items.length ≤ FETCH_TS_LIMIT :=
  ⟨by unfold CombineInv; decide,
    combine_subtasks_into_requests_caps true 2 c2St (by unfold CombineInv; decide)⟩

/-- Concrete combiner state reaching the `statistics.mean` crash: the
aggregate pool is empty, the raw pool holds one subtask already marked done
(as `_cancel_subtasks` does when its parent finished), the carried payload
is empty, and the call has `return_partial_payload=True`. -/
def c10St : CombineState :=
  ⟨[], [⟨0, 5, 0, ⟨0, some 5, true, true⟩⟩], [], []⟩

/-- C10 failing input, evaluated: the state satisfies the combiner invariant
and is reachable (pools holding only done subtasks, empty partial payload,
shallow pool queue), yet the combiner discards the done subtask, the
partial-payload clause fires with an empty `next_subtasks`, and the
dispatch-priority computation `statistics.mean(...)` raises
`StatisticsError` before anything is yielded. -/
theorem combine_subtasks_mean_crash :
    CombineInv c10St ∧
      (∀ e ∈ c10St.rawPool, e.task.is_done = true) ∧
      c10St.aggPool = [] ∧ c10St.nextItems = [] ∧
      combine_subtasks_into_requests true 2 c10St = .crash [] := by
  unfold CombineInv
  decide
